import Mathlib

/-!
# Termtris game core (src/game.c): shallow embedding and verified properties

Modelling conventions.

* C `int` and `long` values are mathematical integers (`Int`); the development
  assumes no signed overflow in arithmetic, which is undefined behaviour in C.
  Narrowing stores are modelled explicitly: `to_int` for the `long` value kept
  in `int blink`, `to_char` for the bytes kept in `escbuf`.
* A C array is a function `Nat → Int` together with its declared length.  Every
  read or write checks the index against the length; an access outside the
  array is undefined behaviour and makes the embedded function return `none`.
* Static locals of `update` and `game_input` (`prev_tick`, `esc`, `csi`,
  `esctop`, `escbuf`) and the globals declared in `game.h` (`quit`,
  `tick_interval`) are fields of the state record `Game`.
* Terminal output (`ansi_*`, `draw_piece`, `draw_line`, `drawpf`, `drawbg`,
  `wrtile`, `putchar`, `fflush`, `fprintf`) does not change the game state and
  is left out.
* `pieces.h` is not part of the sources at hand.  The geometry table `pieces`
  and the spawn table `piece_spawnpos` are parameters; `rand()` is a parameter
  giving the value of the (at most one) call made by `update`.
-/

namespace Termtris

/-! ## Constants of game.c -/

def SCR_ROWS : Int := 20
def SCR_COLS : Int := 20
def PF_ROWS : Int := 18
def PF_COLS : Int := 10
def PF_XOFFS : Int := 2
def PF_YOFFS : Int := 0

def TILE_BLACK : Int := 0
def TILE_PF : Int := 1
def TILE_PFSEP : Int := 2
def TILE_IPIECE : Int := 3
def FIRST_PIECE_TILE : Int := TILE_IPIECE

def BLINK_UPD_RATE : Int := 100
def C0 : Int := 0x9b
def SS3 : Int := 0x8f

/-- Modelled from the spec: the constant `NUM_PIECES` of pieces.h (7 piece kinds). -/
def NUM_PIECES : Int := 7

/-- Modelled from the spec: the macro `BLKX` of pieces.h, the 4-bit column delta
packed in a geometry byte (taken to be the low nibble). -/
def BLKX (c : Nat) : Int := ((c % 16 : Nat) : Int)

/-- Modelled from the spec: the macro `BLKY` of pieces.h, the 4-bit row delta
packed in a geometry byte (taken to be the high nibble). -/
def BLKY (c : Nat) : Int := ((c / 16 % 16 : Nat) : Int)

/-- The geometry table `pieces[NUM_PIECES][4][4]`: kind, rotation, cell number
to packed offset byte. -/
abbrev PieceTable := Nat → Nat → Nat → Nat

/-- The spawn table `piece_spawnpos[NUM_PIECES][2]`: kind to (row, column bias). -/
abbrev SpawnTable := Nat → Int × Int

/-! ## Memory -/

/-- Checked read `a[i]` of an array of length `len`. -/
def rd (a : Nat → Int) (len : Nat) (i : Int) : Option Int :=
  if 0 ≤ i ∧ i < len then some (a i.toNat) else none

/-- Checked write `a[i] = v` to an array of length `len`. -/
def wr (a : Nat → Int) (len : Nat) (i : Int) (v : Int) : Option (Nat → Int) :=
  if 0 ≤ i ∧ i < len then some (Function.update a i.toNat v) else none

/-- Number of cells of `scr` (`SCR_COLS * SCR_ROWS`). -/
def SCR_LEN : Nat := 400

/-- The game state: the file-scope variables of game.c and the static locals of
`update` and `game_input`. -/
structure Game where
  scr : Nat → Int
  pos : Int × Int
  next_pos : Int × Int
  cur_piece : Int
  cur_rot : Int
  prev_rot : Int
  complines : Nat → Int
  num_complines : Int
  prev_tick : Int
  tick_interval : Int
  quit : Int
  esc : Int
  csi : Int
  esctop : Int
  escbuf : Nat → Int

/-! ## collision -/

/-- The four geometry bytes `pieces[piece][rot][0..3]`. -/
def piece_cells (pieces : PieceTable) (piece rot : Nat) : List Nat :=
  (List.range 4).map (pieces piece rot)

/-- The loop of `collision` over the remaining geometry bytes. -/
def collision_cells (scr : Nat → Int) (pos : Int × Int) : List Nat → Option Bool
  | [] => some false
  | c :: cs =>
    let x := PF_XOFFS + pos.2 + BLKX c
    let y := PF_YOFFS + pos.1 + BLKY c
    if y < 0 then collision_cells scr pos cs
    else
      match rd scr SCR_LEN (y * SCR_COLS + x) with
      | none => none
      | some t => if t ≠ TILE_PF then some true else collision_cells scr pos cs

/-- The function `collision(piece, pos)`; it reads the global `cur_rot`. -/
def collision (pieces : PieceTable) (s : Game) (piece : Int) (pos : Int × Int) : Option Bool :=
  if 0 ≤ piece ∧ piece < NUM_PIECES ∧ 0 ≤ s.cur_rot ∧ s.cur_rot < 4 then
    collision_cells s.scr pos (piece_cells pieces piece.toNat s.cur_rot.toNat)
  else none

/-- Screen row of cell `i` of a placement, as computed by `collision`. -/
def cell_y (pieces : PieceTable) (piece rot : Int) (pos : Int × Int) (i : Nat) : Int :=
  PF_YOFFS + pos.1 + BLKY (pieces piece.toNat rot.toNat i)

/-- Screen column of cell `i` of a placement, as computed by `collision`. -/
def cell_x (pieces : PieceTable) (piece rot : Int) (pos : Int × Int) (i : Nat) : Int :=
  PF_XOFFS + pos.2 + BLKX (pieces piece.toNat rot.toNat i)

/-- A screen cell lies in the playfield: rows 0..17, screen columns 2..11. -/
def in_playfield (y x : Int) : Prop :=
  0 ≤ y ∧ y < PF_ROWS ∧ PF_XOFFS ≤ x ∧ x < PF_XOFFS + PF_COLS

instance (y x : Int) : Decidable (in_playfield y x) := by
  unfold in_playfield; infer_instance

/-- Every `TILE_PF` cell of the board lies in the playfield. -/
def pf_only_inside (scr : Nat → Int) : Prop :=
  ∀ y : Nat, y < 20 → ∀ x : Nat, x < 20 →
    scr (y * 20 + x) = TILE_PF → in_playfield y x

/-! ## stick -/

/-- The scan `for(j=0; j<PF_COLS; j++) if(pfline[j] == TILE_PF) nblank++` of
`stick`, reading `pfline[j]` at `scr[base + j]`; the first argument is the
number of cells left, the second the current `j`. -/
def count_blank (scr : Nat → Int) (base : Int) : Nat → Int → Option Nat
  | 0, _ => some 0
  | n + 1, j =>
    match rd scr SCR_LEN (base + j) with
    | none => none
    | some t =>
      match count_blank scr base n (j + 1) with
      | none => none
      | some k => some (if t = TILE_PF then k + 1 else k)

/-- The loop of `stick` over the remaining geometry bytes. -/
def stick_cells (piece : Int) (pos : Int × Int) : Game → List Nat → Option Game
  | s, [] => some s
  | s, c :: cs =>
    let x := pos.2 + BLKX c
    let y := pos.1 + BLKY c
    let base := (y + PF_YOFFS) * SCR_COLS + PF_XOFFS
    match wr s.scr SCR_LEN (base + x) (piece + FIRST_PIECE_TILE) with
    | none => none
    | some scr1 =>
      match count_blank scr1 base 10 0 with
      | none => none
      | some nblank =>
        if nblank = 0 then
          match wr s.complines 4 s.num_complines y with
          | none => none
          | some cl1 =>
            stick_cells piece pos
              { s with scr := scr1, complines := cl1, num_complines := s.num_complines + 1 } cs
        else stick_cells piece pos { s with scr := scr1 } cs

/-- The function `stick(piece, pos)`; it reads the global `cur_rot`. -/
def stick (pieces : PieceTable) (s : Game) (piece : Int) (pos : Int × Int) : Option Game :=
  if 0 ≤ piece ∧ piece < NUM_PIECES ∧ 0 ≤ s.cur_rot ∧ s.cur_rot < 4 then
    stick_cells piece pos s (piece_cells pieces piece.toNat s.cur_rot.toNat)
  else none

/-! ## erase_completed -/

/-- The body of the inner sorting loop: swap `complines[j]` and `complines[i]`
when `complines[j] > complines[i]`. -/
def sort_step (i : Nat) (cl : Nat → Int) (j : Nat) : Nat → Int :=
  if cl j > cl i then Function.update (Function.update cl j (cl i)) i (cl j) else cl

/-- The sorting loops of `erase_completed` over `complines[0..n-1]`. -/
def sort_complines (n : Nat) (cl : Nat → Int) : Nat → Int :=
  (List.range (n - 1)).foldl
    (fun cl i => (List.range' (i + 1) (n - (i + 1))).foldl (sort_step i) cl) cl

/-- The loop `for(j=0; j<num_complines; j++) if(complines[j] == srow) srow--`. -/
def skip_completed (cl : Nat → Int) (n : Nat) (srow : Int) : Int :=
  (List.range n).foldl (fun sr j => if cl j = sr then sr - 1 else sr) srow

/-- The call `memcpy(dptr, sptr, PF_COLS * sizeof *dptr)` copying the playfield
cells of row `srow` to row `drow`; both rows must lie inside `scr`. -/
def memcpy_row (scr : Nat → Int) (drow srow : Int) : Option (Nat → Int) :=
  let sptr := PF_YOFFS * SCR_COLS + PF_XOFFS + srow * SCR_COLS
  let dptr := PF_YOFFS * SCR_COLS + PF_XOFFS + drow * SCR_COLS
  if 0 ≤ sptr ∧ sptr + PF_COLS ≤ SCR_LEN ∧ 0 ≤ dptr ∧ dptr + PF_COLS ≤ SCR_LEN then
    some (fun k =>
      if dptr.toNat ≤ k ∧ k < dptr.toNat + 10 then scr (sptr.toNat + (k - dptr.toNat))
      else scr k)
  else none

/-- The compaction loop `for(i=0; i<PF_ROWS; i++)` of `erase_completed`, with
`iters` iterations left. -/
def compact_loop (cl : Nat → Int) (n : Nat) : Nat → (Nat → Int) → Int → Int → Option (Nat → Int)
  | 0, scr, _, _ => some scr
  | iters + 1, scr, srow, drow =>
    let srow1 := skip_completed cl n srow
    if srow1 < 0 then some scr
    else if srow1 ≠ drow then
      match memcpy_row scr drow srow1 with
      | none => none
      | some scr1 => compact_loop cl n iters scr1 (srow1 - 1) (drow - 1)
    else compact_loop cl n iters scr (srow1 - 1) (drow - 1)

/-- The function `erase_completed()`.  With `num_complines > 4` the loops read
past the end of `complines`. -/
def erase_completed (s : Game) : Option Game :=
  if s.num_complines > 4 then none
  else
    let n := s.num_complines.toNat
    let cl := sort_complines n s.complines
    match compact_loop cl n 18 s.scr (PF_ROWS - 1) (PF_ROWS - 1) with
    | none => none
    | some scr1 => some { s with complines := cl, scr := scr1 }

/-! ## update -/

/-- How the `while` loop of `update` ends: by the `return 0` after a lock, or by
its condition turning false with `dt` left. -/
inductive LoopExit where
  | returned (s : Game) (ret : Int)
  | done (s : Game) (dt : Int)

/-- The loop `while(dt >= tick_interval)` of `update`, with `fuel` iterations
allowed; `none` when an iteration is undefined or the fuel runs out. -/
def fall_loop (pieces : PieceTable) (spawn : SpawnTable) (rnd : Nat) (msec : Int) :
    Nat → Game → Int → Option LoopExit
  | 0, s, dt => if dt ≥ s.tick_interval then none else some (LoopExit.done s dt)
  | fuel + 1, s, dt =>
    if dt ≥ s.tick_interval then
      if s.cur_piece ≥ 0 then
        let s1 := { s with next_pos := (s.pos.1 + 1, s.next_pos.2) }
        match collision pieces s1 s1.cur_piece s1.next_pos with
        | none => none
        | some true =>
          let s2 := { s1 with next_pos := (s1.pos.1, s1.next_pos.2) }
          match stick pieces s2 s2.cur_piece s2.next_pos with
          | none => none
          | some s3 => some (LoopExit.returned { s3 with cur_piece := -1 } 0)
        | some false =>
          fall_loop pieces spawn rnd msec fuel { s1 with prev_tick := msec }
            (dt - s1.tick_interval)
      else
        let piece : Int := (rnd : Int) % NUM_PIECES
        let row := (spawn piece.toNat).1
        let col := PF_COLS / 2 + (spawn piece.toNat).2
        let s1 := { s with cur_piece := piece, prev_rot := 0, cur_rot := 0,
                           pos := (row, col), next_pos := (row + 1, col) }
        fall_loop pieces spawn rnd msec fuel { s1 with prev_tick := msec }
          (dt - s1.tick_interval)
    else some (LoopExit.done s dt)

/-- Iterations the `while` loop of `update` can need: with a positive tick
interval at most `dt / tick_interval`; otherwise the loop either locks within
its first two iterations or never ends. -/
def fall_fuel (dt tick_interval : Int) : Nat :=
  if 0 < tick_interval then (dt / tick_interval).toNat else 2

/-- The conversion of a `long` to the `int` it is stored in (32-bit two's
complement), as in `int blink = dt >> 8`. -/
def to_int (x : Int) : Int := (x + 2147483648) % 4294967296 - 2147483648

/-- The function `update(msec)`, returning the new state and the delay. -/
def update (pieces : PieceTable) (spawn : SpawnTable) (rnd : Nat) (s : Game) (msec : Int) :
    Option (Game × Int) :=
  let dt := msec - s.prev_tick
  if s.num_complines ≠ 0 then
    let blink : Int := to_int (dt >>> (8 : Nat))
    if blink > 6 then
      match erase_completed s with
      | none => none
      | some s1 => some ({ s1 with num_complines := 0 }, 0)
    else if s.num_complines > 4 then none -- the drawing loop reads complines[i], i < num_complines
    else some (s, BLINK_UPD_RATE)
  else
    match fall_loop pieces spawn rnd msec (fall_fuel dt s.tick_interval) s dt with
    | none => none
    | some (LoopExit.returned s1 ret) => some (s1, ret)
    | some (LoopExit.done s1 dt1) =>
      if s1.cur_piece ≥ 0 ∧ (s1.pos ≠ s1.next_pos ∨ s1.cur_rot ≠ s1.prev_rot) then
        some ({ s1 with pos := s1.next_pos, prev_rot := s1.cur_rot }, s1.tick_interval - dt1)
      else some (s1, s1.tick_interval - dt1)

/-! ## game_input -/

/-- The conversion of an `int` to the `char` stored in `escbuf` (signed 8-bit). -/
def to_char (c : Int) : Int := (c + 128) % 256 - 128

/-- The function `runesc(csi, buf)`; `input` stands for the nested call of
`game_input`. -/
def runesc (input : Game → Int → Option Game) (s : Game) (csi : Int) (buf : Nat → Int) :
    Option Game :=
  if csi ≠ C0 then some s
  else if buf 1 = 0 then
    if buf 0 = 65 then input s 119
    else if buf 0 = 66 then input s 115
    else if buf 0 = 67 then input s 100
    else if buf 0 = 68 then input s 97
    else some s
  else some s

/-- The `switch(c)` of `game_input`. -/
def input_switch (pieces : PieceTable) (s : Game) (c : Int) : Option Game :=
  if c = 27 then some { s with esc := 1 }
  else if c = C0 then some { s with esc := 1, csi := C0 }
  else if c = 113 then some { s with quit := 1 }
  else if c = 97 then
    let s1 := { s with next_pos := (s.next_pos.1, s.pos.2 - 1) }
    match collision pieces s1 s1.cur_piece s1.next_pos with
    | none => none
    | some true => some { s1 with next_pos := (s1.next_pos.1, s1.pos.2) }
    | some false => some s1
  else if c = 100 then
    let s1 := { s with next_pos := (s.next_pos.1, s.pos.2 + 1) }
    match collision pieces s1 s1.cur_piece s1.next_pos with
    | none => none
    | some true => some { s1 with next_pos := (s1.next_pos.1, s1.pos.2) }
    | some false => some s1
  else if c = 119 ∨ c = 32 then
    let s1 := { s with prev_rot := s.cur_rot }
    let s2 := { s1 with cur_rot := (s1.cur_rot + 1) % 4 }
    match collision pieces s2 s2.cur_piece s2.next_pos with
    | none => none
    | some true => some { s2 with cur_rot := s2.prev_rot }
    | some false => some s2
  else if c = 115 then
    let s1 := { s with next_pos := (s.pos.1 + 1, s.next_pos.2) }
    match collision pieces s1 s1.cur_piece s1.next_pos with
    | none => none
    | some true => some { s1 with next_pos := (s1.pos.1, s1.next_pos.2) }
    | some false => some s1
  else some s

/-- The part of `game_input` from `if(csi)` on, entered with the state after
the `if(esc)` block. -/
def input_csi (pieces : PieceTable) (input : Game → Int → Option Game) (s : Game) (c : Int) :
    Option Game :=
  if s.csi ≠ 0 then
    let s1 := if c < 0x20 ∨ c ≥ 0x80 then { s with csi := 0, esctop := 0 } else s
    match wr s1.escbuf 64 s1.esctop (to_char c) with
    | none => none
    | some buf1 =>
      let s2 := { s1 with escbuf := buf1, esctop := s1.esctop + 1 }
      if c ≥ 0x40 then
        let prevcsi := s2.csi
        match wr s2.escbuf 64 s2.esctop 0 with
        | none => none
        | some buf2 =>
          runesc input { s2 with escbuf := buf2, csi := 0, esctop := 0 } prevcsi buf2
      else some s2
  else input_switch pieces s c

/-- The function `game_input(c)` with the depth of nested calls bounded by
`depth`; `none` when the depth is used up or a step is undefined. -/
def game_input_depth (pieces : PieceTable) : Nat → Game → Int → Option Game
  | 0, _, _ => none
  | depth + 1, s, c =>
    if s.esc ≠ 0 then
      let s1 := { s with esc := 0 }
      if c = 27 then some { s1 with quit := 1 }
      else if c = 91 then some { s1 with csi := C0 }
      else if c = 79 then some { s1 with csi := SS3 }
      else input_csi pieces (game_input_depth pieces depth) s1 c
    else input_csi pieces (game_input_depth pieces depth) s c

/-- The function `game_input(c)`.  `runesc` calls `game_input` with `esc = 0`
and `csi = 0`, and that call makes no further one: depth 2 is enough. -/
def game_input (pieces : PieceTable) (s : Game) (c : Int) : Option Game :=
  game_input_depth pieces 2 s c

/-! ## init_game -/

/-- The tile `init_game` stores at row `i`, column `j`. -/
def init_tile (i j : Int) : Int :=
  if i > PF_ROWS ∨ j < PF_XOFFS - 1 ∨ j > PF_XOFFS + PF_COLS then TILE_BLACK
  else if (i = PF_ROWS ∧ j ≥ PF_XOFFS ∧ j < PF_XOFFS + PF_COLS) ∨
      j = PF_XOFFS - 1 ∨ j = PF_XOFFS + PF_COLS then TILE_PFSEP
  else TILE_PF

/-- The nested loops of `init_game` filling the screen buffer. -/
def init_scr (scr : Nat → Int) : Nat → Int :=
  (List.range 20).foldl
    (fun scr i => (List.range 20).foldl
      (fun scr j => Function.update scr (i * 20 + j) (init_tile i j)) scr) scr

/-- The function `init_game()`. -/
def init_game (s : Game) : Game :=
  { s with tick_interval := 1000, scr := init_scr s.scr }


/-! ## Auxiliary notions and sample data -/

/-- A sample geometry table: kind 0 is the straight piece (horizontal in even
rotations, vertical in odd ones), kind 1 a hooked piece with cells (0,0), (1,0),
(1,1), (1,2), every other kind the box. -/
def sample_pieces : PieceTable := fun k r i =>
  if k = 0 then
    (if r % 2 = 0 then [0x20, 0x21, 0x22, 0x23] else [0x02, 0x12, 0x22, 0x32]).getD i 0
  else if k = 1 then [0x00, 0x01, 0x11, 0x21].getD i 0
  else [0x11, 0x12, 0x21, 0x22].getD i 0

/-- A sample spawn table. -/
def sample_spawn : SpawnTable := fun k => if k = 0 then (-2, -2) else (-1, -2)

/-- The board as `init_game` leaves it, in closed form. -/
def init_board : Nat → Int := fun k => init_tile (k / 20 : Nat) (k % 20 : Nat)

/-- A state with the freshly initialised board, no piece and an idle decoder. -/
def start_game : Game :=
  { scr := init_board, pos := (0, 0), next_pos := (0, 0), cur_piece := -1,
    cur_rot := 0, prev_rot := 0, complines := fun _ => -1, num_complines := 0,
    prev_tick := 0, tick_interval := 1000, quit := 0, esc := 0, csi := 0,
    esctop := 0, escbuf := fun _ => 0 }

/-- Number of non-background (non-`TILE_PF`) cells inside the playfield. -/
def pf_nonblank (scr : Nat → Int) : Nat :=
  ((List.range 18).map (fun r =>
    ((List.range 10).filter (fun c => scr (r * 20 + 2 + c) ≠ TILE_PF)).length)).sum

/-- A board reached in play: column 0 stacked with straight pieces in rows 2..17,
a box on top of it in rows 0..1 (columns 0..1), two straight pieces lying in row
17 (columns 1..8) and a straight piece standing in column 9 (rows 14..17), which
completes row 17. -/
def tall_board : Nat → Int := fun k =>
  if k / 20 < 18 ∧ 2 ≤ k % 20 ∧ k % 20 < 12 then
    if k / 20 < 2 ∧ k % 20 ≤ 3 then 4
    else if k % 20 = 2 ∨ k / 20 = 17 ∨ (k % 20 = 11 ∧ 14 ≤ k / 20) then 3
    else TILE_PF
  else init_board k

/-- The state in which row 17 of `tall_board` has just been completed. -/
def tall_game : Game :=
  { start_game with scr := tall_board, complines := Function.update (fun _ => -1) 0 17,
                    num_complines := 1 }

/-- Index in `scr` of the playfield cell in row `y`, column `x`, as `stick`
computes it (`pfline + x`). -/
def pf_index (y x : Int) : Int := (y + PF_YOFFS) * SCR_COLS + PF_XOFFS + x

/-- All 10 playfield cells of row `y` are non-background. -/
def row_full (scr : Nat → Int) (y : Int) : Prop :=
  ∀ j : Nat, j < 10 → scr (pf_index y j).toNat ≠ TILE_PF

/-- Playfield row of cell `i` of a placement, as computed by `stick`. -/
def lock_y (pieces : PieceTable) (piece rot : Int) (pos : Int × Int) (i : Nat) : Int :=
  pos.1 + BLKY (pieces piece.toNat rot.toNat i)

/-- Playfield column of cell `i` of a placement, as computed by `stick`. -/
def lock_x (pieces : PieceTable) (piece rot : Int) (pos : Int × Int) (i : Nat) : Int :=
  pos.2 + BLKX (pieces piece.toNat rot.toNat i)

/-- The board after the assignment `pfline[x] = piece + FIRST_PIECE_TILE` of
`stick` for the geometry byte `c`. -/
def put_cell (scr : Nat → Int) (piece : Int) (pos : Int × Int) (c : Nat) : Nat → Int :=
  Function.update scr (pf_index (pos.1 + BLKY c) (pos.2 + BLKX c)).toNat
    (piece + FIRST_PIECE_TILE)

/-- A board whose bottom playfield row 17 is filled in columns 0..5 and empty in
columns 6..9; everything else as after `init_game`. -/
def gap_board : Nat → Int := fun k =>
  if k / 20 = 17 ∧ 2 ≤ k % 20 ∧ k % 20 < 8 then 3 else init_board k

/-- A state on `gap_board` with the straight piece (kind 0, rotation 0) active at
row 15, column 6, so that its 4 cells are the empty cells of row 17. -/
def gap_game : Game :=
  { start_game with scr := gap_board, cur_piece := 0, pos := (15, 6), next_pos := (15, 6) }

/-- The board in which the playfield rows 1..d hold what rows 0..d-1 of `scr`
held and every other cell is as in `scr`. -/
def shift_down (scr : Nat → Int) (d : Nat) : Nat → Int := fun k =>
  if 20 ≤ k ∧ k / 20 ≤ d ∧ 2 ≤ k % 20 ∧ k % 20 < 12 then scr (k - 20) else scr k

/-- The initial board with a straight piece locked upright in playfield column 6,
rows 14..17. -/
def box_board : Nat → Int := fun k =>
  if 14 ≤ k / 20 ∧ k / 20 < 18 ∧ k % 20 = 8 then 3 else init_board k

/-- A state on `box_board` with the box (kind 2) active at row 11, column 4 (cells
in rows 12..13, columns 5..6) and no move pending. -/
def box_game : Game :=
  { start_game with scr := box_board, cur_piece := 2, pos := (11, 4), next_pos := (11, 4) }

/-- The state `box_game` after the accepted commands 'a' and 's': the pending
placement is row 12, column 3, the confirmed one still row 11, column 4. -/
def box_game_moved : Game := { box_game with next_pos := (12, 3) }

/-- A state on the initial board with the straight piece upright (rotation 1) in
playfield column 9, rows 5..8. -/
def wall_game : Game :=
  { start_game with cur_piece := 0, cur_rot := 1, prev_rot := 1, pos := (5, 7),
                    next_pos := (5, 7) }

/-- A state on the initial board with the straight piece lying (rotation 0) in
row 7, columns 3..6. -/
def open_game : Game :=
  { start_game with cur_piece := 0, pos := (5, 3), next_pos := (5, 3) }

/-- A state on the initial board with the hooked piece (kind 1) at row -1, column
0: its cells are (row -1, column 0), (row -1, column 1), (row 0, column 1) and
(row 1, column 1). -/
def hook_game : Game :=
  { start_game with cur_piece := 1, pos := (-1, 0), next_pos := (-1, 0) }

/-- A state on the initial board with the lying straight piece resting on the
floor: confirmed at row 15, column 3 (cells in row 17, columns 3..6), with an
accepted shift to the left pending (column 2, cells in columns 2..5). -/
def floor_game : Game :=
  { start_game with cur_piece := 0, pos := (15, 3), next_pos := (15, 2) }

/-- Feeding a sequence of bytes to `game_input`, one call per byte. -/
def feed (pieces : PieceTable) : Game → List Int → Option Game
  | s, [] => some s
  | s, c :: cs =>
    match game_input pieces s c with
    | none => none
    | some s1 => feed pieces s1 cs

/-- A board reached in play: playfield column 1 stacked with straight pieces in
rows 2..17; everything else as after `init_game`. -/
def high_board : Nat → Int := fun k =>
  if 2 ≤ k / 20 ∧ k / 20 < 18 ∧ k % 20 = 3 then 3 else init_board k

/-- A state on `high_board` with the hooked piece (kind 1) at row -1, column 0:
its cells are (row -1, column 0), (row -1, column 1), (row 0, column 1) and
(row 1, column 1), resting on the stack in column 1. -/
def high_game : Game :=
  { start_game with scr := high_board, cur_piece := 1, pos := (-1, 0), next_pos := (-1, 0) }

/-- One call made by the driver: a byte fed to `game_input`, or a call of `update`
with its time argument and the value its `rand()` call would return. -/
inductive Call where
  | input (c : Int)
  | tick (rnd : Nat) (msec : Int)

/-- The state after a sequence of driver calls, each one defined. -/
def run_calls (pieces : PieceTable) (spawn : SpawnTable) : Game → List Call → Option Game
  | s, [] => some s
  | s, Call.input c :: cs =>
    match game_input pieces s c with
    | none => none
    | some s1 => run_calls pieces spawn s1 cs
  | s, Call.tick rnd msec :: cs =>
    match update pieces spawn rnd s msec with
    | none => none
    | some r => run_calls pieces spawn r.1 cs

/-- The loop of `stick` once more, collecting the index `num_complines` of every
write `complines[num_complines++] = y` it performs, in order; the trace ends
where the run of `stick_cells` ends. -/
def stick_write_indices (piece : Int) (pos : Int × Int) : Game → List Nat → List Int
  | _, [] => []
  | s, c :: cs =>
    let x := pos.2 + BLKX c
    let y := pos.1 + BLKY c
    let base := (y + PF_YOFFS) * SCR_COLS + PF_XOFFS
    match wr s.scr SCR_LEN (base + x) (piece + FIRST_PIECE_TILE) with
    | none => []
    | some scr1 =>
      match count_blank scr1 base 10 0 with
      | none => []
      | some nblank =>
        if nblank = 0 then
          s.num_complines ::
            (match wr s.complines 4 s.num_complines y with
            | none => []
            | some cl1 =>
              stick_write_indices piece pos
                { s with scr := scr1, complines := cl1,
                         num_complines := s.num_complines + 1 } cs)
        else stick_write_indices piece pos { s with scr := scr1 } cs

/-- The indices of the `complines` writes of a call `stick(piece, pos)`. -/
def stick_indices (pieces : PieceTable) (s : Game) (piece : Int) (pos : Int × Int) : List Int :=
  if 0 ≤ piece ∧ piece < NUM_PIECES ∧ 0 ≤ s.cur_rot ∧ s.cur_rot < 4 then
    stick_write_indices piece pos s (piece_cells pieces piece.toNat s.cur_rot.toNat)
  else []

/-- The `while` loop of `update` once more, giving the indices of the `complines`
writes of the `stick` call it makes, if it makes one. -/
def fall_loop_indices (pieces : PieceTable) (spawn : SpawnTable) (rnd : Nat) (msec : Int) :
    Nat → Game → Int → List Int
  | 0, _, _ => []
  | fuel + 1, s, dt =>
    if dt ≥ s.tick_interval then
      if s.cur_piece ≥ 0 then
        let s1 := { s with next_pos := (s.pos.1 + 1, s.next_pos.2) }
        match collision pieces s1 s1.cur_piece s1.next_pos with
        | none => []
        | some true =>
          let s2 := { s1 with next_pos := (s1.pos.1, s1.next_pos.2) }
          stick_indices pieces s2 s2.cur_piece s2.next_pos
        | some false =>
          fall_loop_indices pieces spawn rnd msec fuel { s1 with prev_tick := msec }
            (dt - s1.tick_interval)
      else
        let piece : Int := (rnd : Int) % NUM_PIECES
        let row := (spawn piece.toNat).1
        let col := PF_COLS / 2 + (spawn piece.toNat).2
        let s1 := { s with cur_piece := piece, prev_rot := 0, cur_rot := 0,
                           pos := (row, col), next_pos := (row + 1, col) }
        fall_loop_indices pieces spawn rnd msec fuel { s1 with prev_tick := msec }
          (dt - s1.tick_interval)
    else []

/-- The indices of the `complines` writes performed by `stick` during the call
`update(msec)`: none in blinking mode, where `stick` is not called. -/
def update_indices (pieces : PieceTable) (spawn : SpawnTable) (rnd : Nat) (s : Game)
    (msec : Int) : List Int :=
  if s.num_complines ≠ 0 then []
  else
    fall_loop_indices pieces spawn rnd msec (fall_fuel (msec - s.prev_tick) s.tick_interval) s
      (msec - s.prev_tick)

/-- Row `t` is one of the first `n` entries of `complines`. -/
def completed (cl : Nat → Int) (n : Nat) (t : Int) : Prop := ∃ j, j < n ∧ cl j = t

instance (cl : Nat → Int) (n : Nat) (t : Int) : Decidable (completed cl n t) := by
  unfold completed; infer_instance

/-- Number of surviving (non-completed) rows among the `len` playfield rows
`a, a + 1, ..`. -/
def surviving (cl : Nat → Int) (n : Nat) (a len : Nat) : Nat :=
  (List.range' a len).countP (fun (t : Nat) => decide (¬ completed cl n (t : Int)))

/-- Number of surviving rows below playfield row `r`, that is among the rows
`r + 1 .. 17`. -/
def survivors_below (cl : Nat → Int) (n : Nat) (r : Nat) : Nat :=
  surviving cl n (r + 1) (17 - r)

/-- The board `tall_board` with the completed-lines set {5, 17}, listed in
ascending order. -/
def pair_game : Game :=
  { start_game with scr := tall_board,
                    complines := Function.update (Function.update (fun _ => -1) 0 5) 1 17,
                    num_complines := 2 }

theorem rd_eq_some {a : Nat → Int} {len : Nat} {i : Int} (h0 : 0 ≤ i) (h1 : i < len) :
    rd a len i = some (a i.toNat) := by
  simp [rd, h0, h1]

theorem collision_cells_spec (scr : Nat → Int) (pos : Int × Int) (cs : List Nat)
    (hgrid : ∀ c ∈ cs, 0 ≤ PF_YOFFS + pos.1 + BLKY c →
      PF_YOFFS + pos.1 + BLKY c < 20 ∧ 0 ≤ PF_XOFFS + pos.2 + BLKX c ∧
        PF_XOFFS + pos.2 + BLKX c < 20) :
    ∃ b, collision_cells scr pos cs = some b ∧
      (b = true ↔ ∃ c ∈ cs, 0 ≤ PF_YOFFS + pos.1 + BLKY c ∧
        scr ((PF_YOFFS + pos.1 + BLKY c) * SCR_COLS + (PF_XOFFS + pos.2 + BLKX c)).toNat
          ≠ TILE_PF) := by
  induction cs with
  | nil => exact ⟨false, rfl, by simp⟩
  | cons c cs ih =>
    obtain ⟨b, hb, hiff⟩ := ih (fun c hc => hgrid c (List.mem_cons_of_mem _ hc))
    by_cases hy : PF_YOFFS + pos.1 + BLKY c < 0
    · refine ⟨b, by simp [collision_cells, hy, hb], ?_⟩
      rw [hiff]
      constructor
      · rintro ⟨d, hd, h⟩
        exact ⟨d, List.mem_cons_of_mem _ hd, h⟩
      · rintro ⟨d, hd, h⟩
        rcases List.mem_cons.mp hd with rfl | hd
        · exact absurd h.1 (not_le.mpr hy)
        · exact ⟨d, hd, h⟩
    · have hy0 : 0 ≤ PF_YOFFS + pos.1 + BLKY c := not_lt.mp hy
      obtain ⟨hy1, hx0, hx1⟩ := hgrid c (List.mem_cons_self _ _) hy0
      have hrd : rd scr SCR_LEN ((PF_YOFFS + pos.1 + BLKY c) * SCR_COLS +
          (PF_XOFFS + pos.2 + BLKX c)) = some (scr ((PF_YOFFS + pos.1 + BLKY c) * SCR_COLS +
          (PF_XOFFS + pos.2 + BLKX c)).toNat) := by
        apply rd_eq_some
        · simp only [SCR_COLS]; nlinarith
        · simp only [SCR_COLS, SCR_LEN]; push_cast; nlinarith
      by_cases ht : scr ((PF_YOFFS + pos.1 + BLKY c) * SCR_COLS +
          (PF_XOFFS + pos.2 + BLKX c)).toNat = TILE_PF
      · refine ⟨b, by simp [collision_cells, hy, hrd, ht, hb], ?_⟩
        rw [hiff]
        constructor
        · rintro ⟨d, hd, h⟩
          exact ⟨d, List.mem_cons_of_mem _ hd, h⟩
        · rintro ⟨d, hd, h⟩
          rcases List.mem_cons.mp hd with rfl | hd
          · exact absurd ht h.2
          · exact ⟨d, hd, h⟩
      · refine ⟨true, by simp [collision_cells, hy, hrd, ht], ?_⟩
        simp only [true_iff]
        exact ⟨c, List.mem_cons_self _ _, hy0, ht⟩

theorem mem_piece_cells {pieces : PieceTable} {k r c : Nat} :
    c ∈ piece_cells pieces k r ↔ ∃ i, i < 4 ∧ pieces k r i = c := by
  simp [piece_cells]


/-- What `collision` returns when the cells it reads lie in the grid. -/
theorem collision_result (pieces : PieceTable) (s : Game) (piece : Int) (pos : Int × Int)
    (hp : 0 ≤ piece ∧ piece < 7) (hr : 0 ≤ s.cur_rot ∧ s.cur_rot < 4)
    (hgrid : ∀ i, i < 4 → 0 ≤ cell_y pieces piece s.cur_rot pos i →
      cell_y pieces piece s.cur_rot pos i < 20 ∧ 0 ≤ cell_x pieces piece s.cur_rot pos i ∧
        cell_x pieces piece s.cur_rot pos i < 20) :
    ∃ b, collision pieces s piece pos = some b ∧
      (b = true ↔ ∃ i, i < 4 ∧ 0 ≤ cell_y pieces piece s.cur_rot pos i ∧
        s.scr (cell_y pieces piece s.cur_rot pos i * SCR_COLS +
          cell_x pieces piece s.cur_rot pos i).toNat ≠ TILE_PF) ∧
      (pf_only_inside s.scr →
        (b = true ↔ ∃ i, i < 4 ∧ 0 ≤ cell_y pieces piece s.cur_rot pos i ∧
          (¬ in_playfield (cell_y pieces piece s.cur_rot pos i)
              (cell_x pieces piece s.cur_rot pos i) ∨
            s.scr (cell_y pieces piece s.cur_rot pos i * SCR_COLS +
              cell_x pieces piece s.cur_rot pos i).toNat ≠ TILE_PF))) := by
  obtain ⟨b, hb, hiff⟩ := collision_cells_spec s.scr pos
    (piece_cells pieces piece.toNat s.cur_rot.toNat) (by
      intro c hc
      obtain ⟨i, hi, rfl⟩ := mem_piece_cells.mp hc
      exact hgrid i hi)
  have hiff2 : b = true ↔ ∃ i, i < 4 ∧ 0 ≤ cell_y pieces piece s.cur_rot pos i ∧
        s.scr (cell_y pieces piece s.cur_rot pos i * SCR_COLS +
          cell_x pieces piece s.cur_rot pos i).toNat ≠ TILE_PF := by
    rw [hiff]
    constructor
    · rintro ⟨c, hc, h⟩
      obtain ⟨i, hi, rfl⟩ := mem_piece_cells.mp hc
      exact ⟨i, hi, h⟩
    · rintro ⟨i, hi, h⟩
      exact ⟨_, mem_piece_cells.mpr ⟨i, hi, rfl⟩, h⟩
  refine ⟨b, ?_, hiff2, ?_⟩
  · have h7 : piece < NUM_PIECES := hp.2
    simp [collision, hp.1, h7, hr.1, hr.2, hb]
  · intro hpf
    rw [hiff2]
    constructor
    · rintro ⟨i, hi, hy, ht⟩
      exact ⟨i, hi, hy, Or.inr ht⟩
    · rintro ⟨i, hi, hy, h⟩
      refine ⟨i, hi, hy, ?_⟩
      rcases h with hout | ht
      · intro hpfcell
        apply hout
        obtain ⟨hy1, hx0, hx1⟩ := hgrid i hi hy
        have := hpf (cell_y pieces piece s.cur_rot pos i).toNat (by omega)
          (cell_x pieces piece s.cur_rot pos i).toNat (by omega)
        have hidx : (cell_y pieces piece s.cur_rot pos i * SCR_COLS +
            cell_x pieces piece s.cur_rot pos i).toNat =
            (cell_y pieces piece s.cur_rot pos i).toNat * 20 +
              (cell_x pieces piece s.cur_rot pos i).toNat := by
          simp only [SCR_COLS]; omega
        rw [hidx] at hpfcell
        have h2 := this hpfcell
        rwa [Int.toNat_of_nonneg hy, Int.toNat_of_nonneg hx0] at h2
      · exact ht

/-- C1: for a piece kind 0..6, a rotation 0..3 and a position whose cells with
screen row >= 0 all lie in the 20x20 grid, `collision` returns a result, and the
result is 1 exactly when one of the 4 cells has row >= 0 and a board tile other
than `TILE_PF` (cells with row < 0 never count).  On a board whose `TILE_PF`
cells all lie in the playfield this is: some cell with row >= 0 is occupied or
outside the playfield. -/
theorem collision_spec (pieces : PieceTable) (s : Game) (piece : Int) (pos : Int × Int)
    (hp : 0 ≤ piece ∧ piece < 7) (hr : 0 ≤ s.cur_rot ∧ s.cur_rot < 4)
    (hgrid : ∀ i, i < 4 → 0 ≤ cell_y pieces piece s.cur_rot pos i →
      cell_y pieces piece s.cur_rot pos i < 20 ∧ 0 ≤ cell_x pieces piece s.cur_rot pos i ∧
        cell_x pieces piece s.cur_rot pos i < 20) :
    ∃ b, collision pieces s piece pos = some b ∧
      (b = true ↔ ∃ i, i < 4 ∧ 0 ≤ cell_y pieces piece s.cur_rot pos i ∧
        s.scr (cell_y pieces piece s.cur_rot pos i * SCR_COLS +
          cell_x pieces piece s.cur_rot pos i).toNat ≠ TILE_PF) ∧
      (pf_only_inside s.scr →
        (b = true ↔ ∃ i, i < 4 ∧ 0 ≤ cell_y pieces piece s.cur_rot pos i ∧
          (¬ in_playfield (cell_y pieces piece s.cur_rot pos i)
              (cell_x pieces piece s.cur_rot pos i) ∨
            s.scr (cell_y pieces piece s.cur_rot pos i * SCR_COLS +
              cell_x pieces piece s.cur_rot pos i).toNat ≠ TILE_PF))) :=
  collision_result pieces s piece pos hp hr hgrid

/-- C1 at a concrete input: the straight piece lying across the floor row 18 of
the initial board collides. -/
theorem collision_spec_witness :
    ∃ b, collision sample_pieces { start_game with cur_piece := 0 } 0 (16, 3) = some b ∧
      (b = true ↔ ∃ i, i < 4 ∧
        0 ≤ cell_y sample_pieces 0 (0 : Int) (16, 3) i ∧
        init_board (cell_y sample_pieces 0 (0 : Int) (16, 3) i * SCR_COLS +
          cell_x sample_pieces 0 (0 : Int) (16, 3) i).toNat ≠ TILE_PF) ∧
      (pf_only_inside init_board →
        (b = true ↔ ∃ i, i < 4 ∧ 0 ≤ cell_y sample_pieces 0 (0 : Int) (16, 3) i ∧
          (¬ in_playfield (cell_y sample_pieces 0 (0 : Int) (16, 3) i)
              (cell_x sample_pieces 0 (0 : Int) (16, 3) i) ∨
            init_board (cell_y sample_pieces 0 (0 : Int) (16, 3) i * SCR_COLS +
              cell_x sample_pieces 0 (0 : Int) (16, 3) i).toNat ≠ TILE_PF))) :=
  collision_spec sample_pieces { start_game with cur_piece := 0 } 0 (16, 3)
    (by decide) (by decide) (by decide)


/-! ## erase_completed -/

/-- C2 (the code at the failing input): on `tall_board` the single completed row
17 is full and playfield row 0 holds two tiles; the playfield holds 32
non-background cells before `erase_completed` and 24 after it, not 32 - 10 = 22:
row 0 is copied to row 1 and also left in place. -/
theorem erase_completed_count_tall :
    tall_game.num_complines = 1 ∧ tall_game.complines 0 = 17 ∧
    (∀ j : Nat, j < 10 → tall_game.scr (17 * 20 + 2 + j) ≠ TILE_PF) ∧
    pf_nonblank tall_game.scr = 32 ∧
    (erase_completed tall_game).map (fun s => pf_nonblank s.scr) = some 24 := by
  refine ⟨rfl, rfl, by decide, by decide, by decide⟩

/-! ## stick -/

theorem wr_eq_some {a : Nat → Int} {len : Nat} {i : Int} (v : Int) (h0 : 0 ≤ i)
    (h1 : i < len) : wr a len i v = some (Function.update a i.toNat v) := by
  simp [wr, h0, h1]

theorem count_blank_spec (scr : Nat → Int) (base : Int) :
    ∀ (n : Nat) (j : Int), 0 ≤ base + j → base + j + n ≤ 400 →
      ∃ k, count_blank scr base n j = some k ∧
        (k = 0 ↔ ∀ i : Nat, i < n → scr (base + j + i).toNat ≠ TILE_PF) := by
  intro n
  induction n with
  | zero => intro j _ _; exact ⟨0, rfl, by simp⟩
  | succ n ih =>
    intro j h0 h1
    obtain ⟨k, hk, hiff⟩ := ih (j + 1) (by omega) (by push_cast at h1; omega)
    have hrd : rd scr SCR_LEN (base + j) = some (scr (base + j).toNat) :=
      rd_eq_some h0 (by simp only [SCR_LEN]; push_cast at h1 ⊢; omega)
    refine ⟨if scr (base + j).toNat = TILE_PF then k + 1 else k, ?_, ?_⟩
    · simp [count_blank, hrd, hk]
    · by_cases ht : scr (base + j).toNat = TILE_PF
      · simp only [ht, if_true]
        constructor
        · intro h; omega
        · intro h
          exact absurd (by simpa using ht) (h 0 (Nat.succ_pos n))
      · simp only [ht, if_false, hiff]
        constructor
        · intro h i hi
          rcases Nat.eq_zero_or_pos i with rfl | hpos
          · simpa using ht
          · have := h (i - 1) (by omega)
            have e : base + (j + 1) + ((i - 1 : Nat) : Int) = base + j + (i : Int) := by omega
            rwa [e] at this
        · intro h i hi
          have := h (i + 1) (by omega)
          have e : base + j + ((i + 1 : Nat) : Int) = base + (j + 1) + (i : Int) := by
            push_cast; ring
          rwa [e] at this

theorem count_blank_row (scr : Nat → Int) (y : Int) (hy0 : 0 ≤ y) (hy1 : y < 18) :
    ∃ k, count_blank scr ((y + PF_YOFFS) * SCR_COLS + PF_XOFFS) 10 0 = some k ∧
      (k = 0 ↔ row_full scr y) := by
  obtain ⟨k, hk, hiff⟩ := count_blank_spec scr ((y + PF_YOFFS) * SCR_COLS + PF_XOFFS) 10 0
    (by simp only [PF_YOFFS, SCR_COLS, PF_XOFFS]; omega)
    (by simp only [PF_YOFFS, SCR_COLS, PF_XOFFS]; omega)
  refine ⟨k, hk, ?_⟩
  rw [hiff]
  unfold row_full pf_index
  constructor
  · intro h j hj
    simpa using h j hj
  · intro h j hj
    simpa using h j hj

theorem pf_index_inj {y x y' x' : Int} (hx0 : 0 ≤ x) (hx1 : x < 10) (hx0' : 0 ≤ x')
    (hx1' : x' < 10) (h : pf_index y x = pf_index y' x') : y = y' ∧ x = x' := by
  simp only [pf_index, PF_YOFFS, SCR_COLS, PF_XOFFS] at h
  omega

theorem pf_index_range {y x : Int} (hy0 : 0 ≤ y) (hy1 : y < 18) (hx0 : 0 ≤ x) (hx1 : x < 10) :
    0 ≤ pf_index y x ∧ pf_index y x < 400 := by
  simp only [pf_index, PF_YOFFS, SCR_COLS, PF_XOFFS]
  omega


theorem stick_cells_cons (piece : Int) (pos : Int × Int) (s : Game) (c : Nat) (cs : List Nat)
    (hy0 : 0 ≤ pos.1 + BLKY c) (hy1 : pos.1 + BLKY c < 18)
    (hx0 : 0 ≤ pos.2 + BLKX c) (hx1 : pos.2 + BLKX c < 10) :
    ∃ k : Nat,
      (k = 0 ↔ row_full (put_cell s.scr piece pos c) (pos.1 + BLKY c)) ∧
      stick_cells piece pos s (c :: cs) =
        if k = 0 then
          match wr s.complines 4 s.num_complines (pos.1 + BLKY c) with
          | none => none
          | some cl1 =>
            stick_cells piece pos
              { s with scr := put_cell s.scr piece pos c, complines := cl1,
                       num_complines := s.num_complines + 1 } cs
        else stick_cells piece pos { s with scr := put_cell s.scr piece pos c } cs := by
  have hidx := pf_index_range hy0 hy1 hx0 hx1
  have hwr : wr s.scr SCR_LEN ((pos.1 + BLKY c + PF_YOFFS) * SCR_COLS + PF_XOFFS +
      (pos.2 + BLKX c)) (piece + FIRST_PIECE_TILE) = some (put_cell s.scr piece pos c) :=
    wr_eq_some _ hidx.1 (by simpa [SCR_LEN] using hidx.2)
  obtain ⟨k, hk, hkiff⟩ := count_blank_row (put_cell s.scr piece pos c)
    (pos.1 + BLKY c) hy0 hy1
  refine ⟨k, hkiff, ?_⟩
  simp only [stick_cells, hwr, hk]

theorem stick_cells_spec (piece : Int) (pos : Int × Int)
    (htile : piece + FIRST_PIECE_TILE ≠ TILE_PF) :
    ∀ (cs : List Nat) (s : Game),
      (∀ c ∈ cs, 0 ≤ pos.1 + BLKY c ∧ pos.1 + BLKY c < 18 ∧
        0 ≤ pos.2 + BLKX c ∧ pos.2 + BLKX c < 10) →
      (∀ c ∈ cs, s.scr (pf_index (pos.1 + BLKY c) (pos.2 + BLKX c)).toNat = TILE_PF) →
      cs.Pairwise (fun c d => pf_index (pos.1 + BLKY c) (pos.2 + BLKX c) ≠
        pf_index (pos.1 + BLKY d) (pos.2 + BLKX d)) →
      0 ≤ s.num_complines → s.num_complines + cs.length ≤ 4 →
      ∃ (s' : Game) (rows : List Int), stick_cells piece pos s cs = some s' ∧
        rows.Nodup ∧
        (∀ r, r ∈ rows ↔ (∃ c ∈ cs, pos.1 + BLKY c = r) ∧ row_full s'.scr r) ∧
        s'.num_complines = s.num_complines + rows.length ∧
        (∀ k, k < rows.length → s'.complines (s.num_complines.toNat + k) = rows.getD k 0) ∧
        (∀ k, k < s.num_complines.toNat → s'.complines k = s.complines k) ∧
        (∀ c ∈ cs, s'.scr (pf_index (pos.1 + BLKY c) (pos.2 + BLKX c)).toNat =
          piece + FIRST_PIECE_TILE) ∧
        (∀ idx, (∀ c ∈ cs, idx ≠ (pf_index (pos.1 + BLKY c) (pos.2 + BLKX c)).toNat) →
          s'.scr idx = s.scr idx) := by
  intro cs
  induction cs with
  | nil =>
    intro s _ _ _ _ _
    exact ⟨s, [], rfl, List.nodup_nil, by simp, by simp, by simp, by simp, by simp, by simp⟩
  | cons c cs ih =>
    intro s hrange hpf hpw hn0 hn4
    obtain ⟨hy0, hy1, hx0, hx1⟩ := hrange c (List.mem_cons_self _ _)
    have hidx := pf_index_range hy0 hy1 hx0 hx1
    obtain ⟨k, hkiff, hstep⟩ := stick_cells_cons piece pos s c cs hy0 hy1 hx0 hx1
    rw [List.pairwise_cons] at hpw
    obtain ⟨hpw1, hpw2⟩ := hpw
    have htail_range : ∀ d ∈ cs, 0 ≤ pos.1 + BLKY d ∧ pos.1 + BLKY d < 18 ∧
        0 ≤ pos.2 + BLKX d ∧ pos.2 + BLKX d < 10 :=
      fun d hd => hrange d (List.mem_cons_of_mem _ hd)
    have hne_nat : ∀ d ∈ cs, (pf_index (pos.1 + BLKY d) (pos.2 + BLKX d)).toNat ≠
        (pf_index (pos.1 + BLKY c) (pos.2 + BLKX c)).toNat := by
      intro d hd h
      obtain ⟨dy0, dy1, dx0, dx1⟩ := htail_range d hd
      have := pf_index_range dy0 dy1 dx0 dx1
      exact hpw1 d hd (by omega)
    have htail_pf : ∀ d ∈ cs,
        (put_cell s.scr piece pos c) (pf_index (pos.1 + BLKY d) (pos.2 + BLKX d)).toNat =
          TILE_PF := by
      intro d hd
      unfold put_cell
      rw [Function.update_noteq (hne_nat d hd)]
      exact hpf d (List.mem_cons_of_mem _ hd)
    have hput_self : (put_cell s.scr piece pos c)
        (pf_index (pos.1 + BLKY c) (pos.2 + BLKX c)).toNat = piece + FIRST_PIECE_TILE := by
      unfold put_cell; exact Function.update_same _ _ _
    -- no later cell lies in a row that is full right after this write
    have hfull_no_tail : row_full (put_cell s.scr piece pos c) (pos.1 + BLKY c) →
        ∀ d ∈ cs, pos.1 + BLKY d ≠ pos.1 + BLKY c := by
      intro hfull d hd hrow
      obtain ⟨dy0, dy1, dx0, dx1⟩ := htail_range d hd
      have h1 := hfull (pos.2 + BLKX d).toNat (by omega)
      rw [Int.toNat_of_nonneg dx0, ← hrow] at h1
      exact h1 (htail_pf d hd)
    by_cases hk0 : k = 0
    · have hfull := hkiff.mp hk0
      have hwc : wr s.complines 4 s.num_complines (pos.1 + BLKY c) =
          some (Function.update s.complines s.num_complines.toNat (pos.1 + BLKY c)) :=
        wr_eq_some _ hn0 (by simp only [List.length_cons] at hn4; push_cast at hn4 ⊢; omega)
      obtain ⟨s', rows, hs', hnd, hmem, hnum, hent, hpre, hcell, hframe⟩ :=
        ih { s with scr := put_cell s.scr piece pos c,
                    complines := Function.update s.complines s.num_complines.toNat
                      (pos.1 + BLKY c),
                    num_complines := s.num_complines + 1 }
          htail_range htail_pf hpw2 (by simp only; omega)
          (by simp only [List.length_cons] at hn4 ⊢; push_cast at hn4; omega)
      simp only at hnum hent hpre hframe
      have hfull' : row_full s'.scr (pos.1 + BLKY c) := by
        intro j hj
        by_cases hex : ∃ d ∈ cs, (pf_index (pos.1 + BLKY c) j).toNat =
            (pf_index (pos.1 + BLKY d) (pos.2 + BLKX d)).toNat
        · obtain ⟨d, hd, he⟩ := hex
          rw [he, hcell d hd]; exact htile
        · rw [hframe _ (by
            intro d hd he
            exact hex ⟨d, hd, he⟩)]
          exact hfull j hj
      refine ⟨s', (pos.1 + BLKY c) :: rows, ?_, ?_, ?_, ?_, ?_, ?_, ?_, ?_⟩
      · rw [hstep, if_pos hk0, hwc]; exact hs'
      · refine List.nodup_cons.mpr ⟨?_, hnd⟩
        intro hin
        obtain ⟨⟨d, hd, hrow⟩, _⟩ := (hmem _).mp hin
        exact hfull_no_tail hfull d hd hrow
      · intro r
        rw [List.mem_cons, hmem r]
        constructor
        · rintro (rfl | ⟨⟨d, hd, hrow⟩, hf⟩)
          · exact ⟨⟨c, List.mem_cons_self _ _, rfl⟩, hfull'⟩
          · exact ⟨⟨d, List.mem_cons_of_mem _ hd, hrow⟩, hf⟩
        · rintro ⟨⟨d, hd, hrow⟩, hf⟩
          rcases List.mem_cons.mp hd with rfl | hd
          · exact Or.inl hrow.symm
          · exact Or.inr ⟨⟨d, hd, hrow⟩, hf⟩
      · rw [hnum, List.length_cons]; push_cast; ring
      · intro i hi
        rcases Nat.eq_zero_or_pos i with rfl | hpos
        · have := hpre s.num_complines.toNat (by omega)
          simpa using this
        · have := hent (i - 1) (by simp only [List.length_cons] at hi; omega)
          have e1 : (s.num_complines + 1).toNat + (i - 1) = s.num_complines.toNat + i := by
            omega
          have e2 : ((pos.1 + BLKY c) :: rows).getD i 0 = rows.getD (i - 1) 0 := by
            obtain ⟨i', rfl⟩ : ∃ i', i = i' + 1 := ⟨i - 1, by omega⟩
            simp
          rw [e1] at this
          rw [this, e2]
      · intro i hi
        rw [hpre i (by omega), Function.update_noteq (by omega)]
      · intro d hd
        rcases List.mem_cons.mp hd with rfl | hd
        · rw [hframe _ (fun e he h => hne_nat e he h.symm)]
          exact hput_self
        · exact hcell d hd
      · intro idx hidx'
        rw [hframe idx (fun d hd => hidx' d (List.mem_cons_of_mem _ hd))]
        unfold put_cell
        exact Function.update_noteq (hidx' c (List.mem_cons_self _ _)) _ _
    · have hnotfull : ¬ row_full (put_cell s.scr piece pos c) (pos.1 + BLKY c) :=
        fun h => hk0 (hkiff.mpr h)
      obtain ⟨s', rows, hs', hnd, hmem, hnum, hent, hpre, hcell, hframe⟩ :=
        ih { s with scr := put_cell s.scr piece pos c }
          htail_range htail_pf hpw2 hn0
          (by simp only [List.length_cons] at hn4 ⊢; push_cast at hn4; omega)
      simp only at hnum hent hpre hframe
      refine ⟨s', rows, ?_, hnd, ?_, hnum, hent, hpre, ?_, ?_⟩
      · rw [hstep, if_neg hk0]; exact hs'
      · intro r
        rw [hmem r]
        constructor
        · rintro ⟨⟨d, hd, hrow⟩, hf⟩
          exact ⟨⟨d, List.mem_cons_of_mem _ hd, hrow⟩, hf⟩
        · rintro ⟨⟨d, hd, hrow⟩, hf⟩
          rcases List.mem_cons.mp hd with rfl | hd
          · by_cases hex : ∃ e ∈ cs, pos.1 + BLKY e = pos.1 + BLKY d
            · obtain ⟨e, he, hrow'⟩ := hex
              exact ⟨⟨e, he, hrow'.trans hrow⟩, hf⟩
            · exfalso
              apply hnotfull
              intro j hj
              have := hf j hj
              rw [← hrow] at this
              rwa [hframe _ (by
                intro e he h
                obtain ⟨ey0, ey1, ex0, ex1⟩ := htail_range e he
                have r1 := pf_index_range ey0 ey1 ex0 ex1
                have r2 := pf_index_range hy0 hy1 (Int.ofNat_nonneg j)
                  (by exact_mod_cast hj)
                have h3 : pf_index (pos.1 + BLKY d) (j : Int) =
                    pf_index (pos.1 + BLKY e) (pos.2 + BLKX e) := by omega
                have := pf_index_inj (Int.ofNat_nonneg j) (by exact_mod_cast hj) ex0 ex1 h3
                exact hex ⟨e, he, this.1.symm⟩)] at this
          · exact ⟨⟨d, hd, hrow⟩, hf⟩
      · intro d hd
        rcases List.mem_cons.mp hd with rfl | hd
        · rw [hframe _ (fun e he h => hne_nat e he h.symm)]
          exact hput_self
        · exact hcell d hd
      · intro idx hidx'
        rw [hframe idx (fun d hd => hidx' d (List.mem_cons_of_mem _ hd))]
        unfold put_cell
        exact Function.update_noteq (hidx' c (List.mem_cons_self _ _)) _ _


/-- C3: when the 4 cells of the placement are distinct playfield cells (rows
0..17, columns 0..9) holding `TILE_PF` and `num_complines = 0`, `stick` returns,
writes the piece tile into exactly these cells, and the first `num_complines`
entries of `complines` are exactly the rows touched by the piece that are full
on the resulting board, each listed once. -/
theorem stick_complines (pieces : PieceTable) (s : Game) (piece : Int) (pos : Int × Int)
    (hp : 0 ≤ piece ∧ piece < 7) (hr : 0 ≤ s.cur_rot ∧ s.cur_rot < 4)
    (hn : s.num_complines = 0)
    (hcells : ∀ i, i < 4 →
      0 ≤ lock_y pieces piece s.cur_rot pos i ∧ lock_y pieces piece s.cur_rot pos i < 18 ∧
      0 ≤ lock_x pieces piece s.cur_rot pos i ∧ lock_x pieces piece s.cur_rot pos i < 10 ∧
      s.scr (pf_index (lock_y pieces piece s.cur_rot pos i)
        (lock_x pieces piece s.cur_rot pos i)).toNat = TILE_PF)
    (hdist : ∀ i, i < 4 → ∀ j, j < 4 → i ≠ j →
      ¬ (lock_y pieces piece s.cur_rot pos i = lock_y pieces piece s.cur_rot pos j ∧
         lock_x pieces piece s.cur_rot pos i = lock_x pieces piece s.cur_rot pos j)) :
    ∃ s', stick pieces s piece pos = some s' ∧
      0 ≤ s'.num_complines ∧ s'.num_complines ≤ 4 ∧
      (∀ r : Int, (∃ k : Nat, (k : Int) < s'.num_complines ∧ s'.complines k = r) ↔
        ((∃ i, i < 4 ∧ lock_y pieces piece s.cur_rot pos i = r) ∧ row_full s'.scr r)) ∧
      (∀ k1 k2 : Nat, (k1 : Int) < s'.num_complines → (k2 : Int) < s'.num_complines →
        s'.complines k1 = s'.complines k2 → k1 = k2) ∧
      (∀ i, i < 4 → s'.scr (pf_index (lock_y pieces piece s.cur_rot pos i)
        (lock_x pieces piece s.cur_rot pos i)).toNat = piece + FIRST_PIECE_TILE) ∧
      (∀ idx, (∀ i, i < 4 → idx ≠ (pf_index (lock_y pieces piece s.cur_rot pos i)
        (lock_x pieces piece s.cur_rot pos i)).toNat) → s'.scr idx = s.scr idx) := by
  have htile : piece + FIRST_PIECE_TILE ≠ TILE_PF := by
    simp only [FIRST_PIECE_TILE, TILE_IPIECE, TILE_PF]; omega
  have hpw : (piece_cells pieces piece.toNat s.cur_rot.toNat).Pairwise
      (fun c d => pf_index (pos.1 + BLKY c) (pos.2 + BLKX c) ≠
        pf_index (pos.1 + BLKY d) (pos.2 + BLKX d)) := by
    unfold piece_cells
    rw [List.pairwise_map]
    refine List.Pairwise.imp_of_mem ?_ (List.pairwise_lt_range 4)
    intro i j hi hj hij h
    have hi4 := List.mem_range.mp hi
    have hj4 := List.mem_range.mp hj
    obtain ⟨_, _, ix0, ix1, _⟩ := hcells i hi4
    obtain ⟨_, _, jx0, jx1, _⟩ := hcells j hj4
    exact hdist i hi4 j hj4 (Nat.ne_of_lt hij) (pf_index_inj ix0 ix1 jx0 jx1 h)
  obtain ⟨s', rows, hs', hnd, hmem, hnum, hent, _, hcell, hframe⟩ :=
    stick_cells_spec piece pos htile (piece_cells pieces piece.toNat s.cur_rot.toNat) s
      (by
        intro c hc
        obtain ⟨i, hi, rfl⟩ := mem_piece_cells.mp hc
        obtain ⟨h1, h2, h3, h4, _⟩ := hcells i hi
        exact ⟨h1, h2, h3, h4⟩)
      (by
        intro c hc
        obtain ⟨i, hi, rfl⟩ := mem_piece_cells.mp hc
        exact (hcells i hi).2.2.2.2)
      hpw (by omega) (by simp [piece_cells, hn])
  have hlen : rows.length ≤ 4 := by
    have h1 : rows.toFinset ⊆ ((List.range 4).map
        (fun i => lock_y pieces piece s.cur_rot pos i)).toFinset := by
      intro r hr'
      rw [List.mem_toFinset] at hr' ⊢
      obtain ⟨⟨c, hc, hrow⟩, _⟩ := (hmem r).mp hr'
      obtain ⟨i, hi, rfl⟩ := mem_piece_cells.mp hc
      exact List.mem_map.mpr ⟨i, List.mem_range.mpr hi, hrow⟩
    have h2 := Finset.card_le_card h1
    rw [List.toFinset_card_of_nodup hnd] at h2
    exact h2.trans ((List.toFinset_card_le _).trans (by simp))
  rw [hn] at hnum hent
  simp only [Int.toNat_zero, zero_add] at hnum hent
  have hmem_iff : ∀ r : Int, (∃ k : Nat, (k : Int) < s'.num_complines ∧ s'.complines k = r) ↔
      r ∈ rows := by
    intro r
    rw [hnum, List.mem_iff_getElem]
    constructor
    · rintro ⟨k, hk, hkr⟩
      have hk' : k < rows.length := by exact_mod_cast hk
      refine ⟨k, hk', ?_⟩
      rw [← hkr, hent k hk', List.getD_eq_getElem _ _ hk']
    · rintro ⟨k, hk, hkr⟩
      refine ⟨k, by exact_mod_cast hk, ?_⟩
      rw [hent k hk, List.getD_eq_getElem _ _ hk, hkr]
  refine ⟨s', ?_, ?_, ?_, ?_, ?_, ?_, ?_⟩
  · have h7 : piece < NUM_PIECES := hp.2
    simp only [stick, hp.1, h7, hr.1, hr.2, and_self, if_true]
    exact hs'
  · rw [hnum]; omega
  · rw [hnum]; omega
  · intro r
    rw [hmem_iff r, hmem r]
    constructor
    · rintro ⟨⟨c, hc, hrow⟩, hf⟩
      obtain ⟨i, hi, rfl⟩ := mem_piece_cells.mp hc
      exact ⟨⟨i, hi, hrow⟩, hf⟩
    · rintro ⟨⟨i, hi, hrow⟩, hf⟩
      exact ⟨⟨_, mem_piece_cells.mpr ⟨i, hi, rfl⟩, hrow⟩, hf⟩
  · intro k1 k2 h1 h2 he
    rw [hnum] at h1 h2
    have h1' : k1 < rows.length := by exact_mod_cast h1
    have h2' : k2 < rows.length := by exact_mod_cast h2
    rw [hent k1 h1', hent k2 h2', List.getD_eq_getElem _ _ h1',
      List.getD_eq_getElem _ _ h2'] at he
    exact (List.Nodup.getElem_inj_iff hnd).mp he
  · intro i hi
    exact hcell _ (mem_piece_cells.mpr ⟨i, hi, rfl⟩)
  · intro idx hidx
    apply hframe
    intro c hc
    obtain ⟨i, hi, rfl⟩ := mem_piece_cells.mp hc
    exact hidx i hi


/-- C3 at a concrete input: the straight piece locked into the 4 empty cells of
row 17 of `gap_board`. -/
theorem stick_complines_witness :
    ∃ s', stick sample_pieces gap_game 0 (15, 6) = some s' ∧
      0 ≤ s'.num_complines ∧ s'.num_complines ≤ 4 ∧
      (∀ r : Int, (∃ k : Nat, (k : Int) < s'.num_complines ∧ s'.complines k = r) ↔
        ((∃ i, i < 4 ∧ lock_y sample_pieces 0 gap_game.cur_rot (15, 6) i = r) ∧
          row_full s'.scr r)) ∧
      (∀ k1 k2 : Nat, (k1 : Int) < s'.num_complines → (k2 : Int) < s'.num_complines →
        s'.complines k1 = s'.complines k2 → k1 = k2) ∧
      (∀ i, i < 4 → s'.scr (pf_index (lock_y sample_pieces 0 gap_game.cur_rot (15, 6) i)
        (lock_x sample_pieces 0 gap_game.cur_rot (15, 6) i)).toNat = 0 + FIRST_PIECE_TILE) ∧
      (∀ idx, (∀ i, i < 4 → idx ≠ (pf_index (lock_y sample_pieces 0 gap_game.cur_rot (15, 6) i)
        (lock_x sample_pieces 0 gap_game.cur_rot (15, 6) i)).toNat) →
          s'.scr idx = gap_game.scr idx) :=
  stick_complines sample_pieces gap_game 0 (15, 6) (by decide) (by decide) rfl
    (by decide) (by decide)


/-! ## Compaction with a single completed row -/

theorem skip_completed_one (cl : Nat → Int) (srow : Int) :
    skip_completed cl 1 srow = if cl 0 = srow then srow - 1 else srow := by
  simp [skip_completed, List.range_succ]

theorem memcpy_row_nat (scr : Nat → Int) (d r : Nat) (hd : d < 18) (hr : r < 18) :
    memcpy_row scr (d : Int) (r : Int) = some (fun k =>
      if d * 20 + 2 ≤ k ∧ k < d * 20 + 12 then scr (r * 20 + 2 + (k - (d * 20 + 2)))
      else scr k) := by
  have e1 : (PF_YOFFS * SCR_COLS + PF_XOFFS + (r : Int) * SCR_COLS).toNat = r * 20 + 2 := by
    simp only [PF_YOFFS, SCR_COLS, PF_XOFFS]; omega
  have e2 : (PF_YOFFS * SCR_COLS + PF_XOFFS + (d : Int) * SCR_COLS).toNat = d * 20 + 2 := by
    simp only [PF_YOFFS, SCR_COLS, PF_XOFFS]; omega
  have hc : 0 ≤ PF_YOFFS * SCR_COLS + PF_XOFFS + (r : Int) * SCR_COLS ∧
      PF_YOFFS * SCR_COLS + PF_XOFFS + (r : Int) * SCR_COLS + PF_COLS ≤ (SCR_LEN : Int) ∧
      0 ≤ PF_YOFFS * SCR_COLS + PF_XOFFS + (d : Int) * SCR_COLS ∧
      PF_YOFFS * SCR_COLS + PF_XOFFS + (d : Int) * SCR_COLS + PF_COLS ≤ (SCR_LEN : Int) := by
    simp only [PF_YOFFS, SCR_COLS, PF_XOFFS, PF_COLS, SCR_LEN]; omega
  unfold memcpy_row
  simp only [hc, and_self, if_true, e1, e2]

theorem shift_down_memcpy (scr : Nat → Int) (d : Nat) (k : Nat) :
    shift_down (fun k => if (d + 1) * 20 + 2 ≤ k ∧ k < (d + 1) * 20 + 12 then
        scr (d * 20 + 2 + (k - ((d + 1) * 20 + 2))) else scr k) d k =
      shift_down scr (d + 1) k := by
  simp only [shift_down]
  split_ifs <;> first | rfl | (congr 1; omega)

/-- Below the completed row: with source cursor `d - 1` and destination cursor
`d`, the rest of the loop moves rows 0..d-1 down by one. -/
theorem compact_loop_below (cl : Nat → Int) (r : Int) (hcl : cl 0 = r) :
    ∀ (d fuel : Nat) (scr : Nat → Int), d ≤ fuel → (d : Int) ≤ r → d < 18 →
      ∃ scr', compact_loop cl 1 fuel scr ((d : Int) - 1) (d : Int) = some scr' ∧
        ∀ k, scr' k = shift_down scr d k := by
  intro d
  induction d with
  | zero =>
    intro fuel scr _ hr _
    refine ⟨scr, ?_, ?_⟩
    · cases fuel with
      | zero => rfl
      | succ f =>
        have hne : ¬ (cl 0 = -1) := by rw [hcl]; omega
        simp [compact_loop, skip_completed_one, hne]
    · intro k
      simp only [shift_down]
      split_ifs with h
      · exfalso; omega
      · rfl
  | succ d ih =>
    intro fuel scr hf hr hd
    obtain ⟨f, rfl⟩ : ∃ f, fuel = f + 1 := ⟨fuel - 1, by omega⟩
    have hne : ¬ (cl 0 = ((d + 1 : Nat) : Int) - 1) := by rw [hcl]; push_cast at hr ⊢; omega
    have hskip : skip_completed cl 1 (((d + 1 : Nat) : Int) - 1) = (d : Int) := by
      rw [skip_completed_one, if_neg hne]; push_cast; ring
    have hmc := memcpy_row_nat scr (d + 1) d hd (by omega)
    obtain ⟨scr', hs', hk'⟩ := ih f _ (by omega) (by push_cast at hr; omega) (by omega)
    refine ⟨scr', ?_, ?_⟩
    · rw [compact_loop]
      simp only [hskip]
      rw [if_neg (by omega), if_pos (by push_cast; omega), hmc]
      simp only
      have e : ((d + 1 : Nat) : Int) - 1 = (d : Int) := by push_cast; ring
      rw [e]
      exact hs'
    · intro k
      rw [hk' k, shift_down_memcpy]

/-- Above the completed row both cursors move up together without copying. -/
theorem compact_loop_above (cl : Nat → Int) (r : Nat) (hcl : cl 0 = (r : Int)) :
    ∀ (m fuel : Nat) (scr : Nat → Int),
      compact_loop cl 1 (fuel + m) scr ((r + m : Nat) : Int) ((r + m : Nat) : Int) =
        compact_loop cl 1 fuel scr (r : Int) (r : Int) := by
  intro m
  induction m with
  | zero => intro fuel scr; rfl
  | succ m ih =>
    intro fuel scr
    have hne : ¬ (cl 0 = ((r + (m + 1) : Nat) : Int)) := by rw [hcl]; push_cast; omega
    have hskip : skip_completed cl 1 ((r + (m + 1) : Nat) : Int) = ((r + (m + 1) : Nat) : Int) := by
      rw [skip_completed_one, if_neg hne]
    have e0 : fuel + (m + 1) = (fuel + m) + 1 := by omega
    rw [e0, compact_loop]
    simp only [hskip]
    rw [if_neg (by omega), if_neg (by simp)]
    have e : ((r + (m + 1) : Nat) : Int) - 1 = ((r + m : Nat) : Int) := by push_cast; ring
    rw [e]
    exact ih fuel scr

/-- At the completed row the source cursor steps over it. -/
theorem compact_loop_at (cl : Nat → Int) (r : Nat) (hcl : cl 0 = (r : Int)) (fuel : Nat)
    (scr : Nat → Int) :
    compact_loop cl 1 (fuel + 1) scr (r : Int) (r : Int) =
      compact_loop cl 1 (fuel + 1) scr ((r : Int) - 1) (r : Int) := by
  have h1 : skip_completed cl 1 (r : Int) = (r : Int) - 1 := by
    rw [skip_completed_one, if_pos hcl]
  have h2 : skip_completed cl 1 ((r : Int) - 1) = (r : Int) - 1 := by
    rw [skip_completed_one, if_neg (by rw [hcl]; omega)]
  rw [compact_loop, compact_loop]
  simp only [h1, h2]

/-- The compaction loop of `erase_completed` with the single completed row `r`:
rows 1..r receive the former rows 0..r-1, every other cell keeps its tile. -/
theorem compact_loop_single (cl : Nat → Int) (r : Nat) (hcl : cl 0 = (r : Int)) (hr : r < 18)
    (scr : Nat → Int) :
    ∃ scr', compact_loop cl 1 18 scr (PF_ROWS - 1) (PF_ROWS - 1) = some scr' ∧
      ∀ k, scr' k = shift_down scr r k := by
  have e17 : PF_ROWS - 1 = ((r + (17 - r) : Nat) : Int) := by
    simp only [PF_ROWS]; omega
  have e18 : 18 = (r + 1) + (17 - r) := by omega
  rw [e17, e18, compact_loop_above cl r hcl, compact_loop_at cl r hcl]
  exact compact_loop_below cl r hcl r (r + 1) scr (by omega) le_rfl hr


/-! ## game_input: the try-commands -/

theorem collision_congr (pieces : PieceTable) (s1 s2 : Game) (piece : Int) (pos : Int × Int)
    (hscr : s1.scr = s2.scr) (hrot : s1.cur_rot = s2.cur_rot) :
    collision pieces s1 piece pos = collision pieces s2 piece pos := by
  simp only [collision, hscr, hrot]

theorem game_input_normal (pieces : PieceTable) (s : Game) (c : Int)
    (hesc : s.esc = 0) (hcsi : s.csi = 0) :
    game_input pieces s c = input_switch pieces s c := by
  simp [game_input, game_input_depth, input_csi, hesc, hcsi]

/-- C4 (the code at the failing input): on `box_board`, from `box_game` (pending
placement equal to the confirmed one and collision-free) the bytes 'a', 's', 'd'
leave the pending placement at row 12, column 4, which collides; the next
`update` with no tick due commits it, so the confirmed placement overlaps the
locked tile in row 14, column 6. -/
theorem input_sequence_overlap :
    box_game.next_pos = box_game.pos ∧ box_game.cur_rot = box_game.prev_rot ∧
    collision sample_pieces box_game box_game.cur_piece box_game.next_pos = some false ∧
    ∃ s3, ((game_input sample_pieces box_game 97).bind
        (fun s => game_input sample_pieces s 115)).bind
        (fun s => game_input sample_pieces s 100) = some s3 ∧
      s3.next_pos = (12, 4) ∧
      collision sample_pieces s3 s3.cur_piece s3.next_pos = some true ∧
      ∃ s4, update sample_pieces sample_spawn 0 s3 500 = some (s4, 500) ∧
        s4.pos = (12, 4) ∧ s4.prev_rot = s4.cur_rot ∧
        collision sample_pieces s4 s4.cur_piece s4.pos = some true :=
  ⟨rfl, rfl, by decide, _, rfl, rfl, by decide, _, rfl, rfl, rfl, by decide⟩

/-- C6 (the code at the failing input): in `box_game_moved` the byte 'd' tests row
12, column 5, which collides, and the call changes the pending position from
(12, 3) to (12, 4) instead of leaving the piece state as it was. -/
theorem failed_shift_changes_pending :
    box_game_moved.esc = 0 ∧ box_game_moved.csi = 0 ∧
    collision sample_pieces box_game_moved box_game_moved.cur_piece
      (box_game_moved.next_pos.1, box_game_moved.pos.2 + 1) = some true ∧
    box_game_moved.next_pos = (12, 3) ∧
    (game_input sample_pieces box_game_moved 100).map (fun s => s.next_pos) = some (12, 4) :=
  ⟨rfl, rfl, by decide, rfl, by decide⟩

/-- C7: in NORMAL decoder mode, for the byte 'w' or ' ': if the rotated candidate
(rotation `(cur_rot + 1) mod 4` at `next_pos`) collides, `game_input` returns
with `cur_rot` as before the call; if it does not collide, with
`cur_rot = (cur_rot + 1) mod 4`. -/
theorem rotate_revert (pieces : PieceTable) (s : Game) (c : Int)
    (hc : c = 119 ∨ c = 32) (hesc : s.esc = 0) (hcsi : s.csi = 0) :
    (collision pieces { s with cur_rot := (s.cur_rot + 1) % 4 } s.cur_piece s.next_pos =
        some true →
      ∃ s', game_input pieces s c = some s' ∧ s'.cur_rot = s.cur_rot) ∧
    (collision pieces { s with cur_rot := (s.cur_rot + 1) % 4 } s.cur_piece s.next_pos =
        some false →
      ∃ s', game_input pieces s c = some s' ∧ s'.cur_rot = (s.cur_rot + 1) % 4) := by
  have hne : ¬ (c = 27) ∧ ¬ (c = C0) ∧ ¬ (c = 113) ∧ ¬ (c = 97) ∧ ¬ (c = 100) := by
    simp only [C0]; omega
  have hcol : collision pieces
      { s with prev_rot := s.cur_rot, cur_rot := (s.cur_rot + 1) % 4 } s.cur_piece s.next_pos =
      collision pieces { s with cur_rot := (s.cur_rot + 1) % 4 } s.cur_piece s.next_pos :=
    collision_congr _ _ _ _ _ rfl rfl
  rw [game_input_normal pieces s c hesc hcsi]
  constructor
  · intro h
    rw [← hcol] at h
    refine ⟨{ s with prev_rot := s.cur_rot }, ?_, rfl⟩
    simp only [input_switch, hne.1, hne.2.1, hne.2.2.1, hne.2.2.2.1, hne.2.2.2.2, hc,
      if_false, if_true, h]
  · intro h
    rw [← hcol] at h
    refine ⟨{ s with prev_rot := s.cur_rot, cur_rot := (s.cur_rot + 1) % 4 }, ?_, rfl⟩
    simp only [input_switch, hne.1, hne.2.1, hne.2.2.1, hne.2.2.2.1, hne.2.2.2.2, hc,
      if_false, if_true, h]

/-- C7 at concrete inputs: the upright straight piece in column 9 cannot turn
(the lying one would reach into the right border), the lying one in columns 3..6
can. -/
theorem rotate_revert_witness :
    (∃ s', game_input sample_pieces wall_game 119 = some s' ∧ s'.cur_rot = wall_game.cur_rot) ∧
    (∃ s', game_input sample_pieces open_game 32 = some s' ∧
      s'.cur_rot = (open_game.cur_rot + 1) % 4) :=
  ⟨(rotate_revert sample_pieces wall_game 119 (Or.inl rfl) rfl rfl).1 (by decide),
   (rotate_revert sample_pieces open_game 32 (Or.inr rfl) rfl rfl).2 (by decide)⟩


/-! ## init_game and the horizontal bounds -/

theorem foldl_update_range (f : Nat → Int) (b : Nat) :
    ∀ (n : Nat) (a : Nat → Int) (k : Nat),
      (List.range n).foldl (fun a j => Function.update a (b + j) (f j)) a k =
        if b ≤ k ∧ k < b + n then f (k - b) else a k := by
  intro n
  induction n with
  | zero =>
    intro a k
    simp only [List.range_zero, List.foldl_nil]
    rw [if_neg (by omega)]
  | succ n ih =>
    intro a k
    rw [List.range_succ, List.foldl_append]
    simp only [List.foldl_cons, List.foldl_nil]
    by_cases hk : k = b + n
    · subst hk
      simp
    · rw [Function.update_noteq hk, ih]
      by_cases h1 : b ≤ k ∧ k < b + n
      · rw [if_pos h1, if_pos ⟨h1.1, by omega⟩]
      · rw [if_neg h1, if_neg (by omega)]

theorem init_rows (scr : Nat → Int) :
    ∀ (m k : Nat),
      (List.range m).foldl
        (fun (scr : Nat → Int) (i : Nat) => (List.range 20).foldl
          (fun (scr : Nat → Int) (j : Nat) =>
            Function.update scr (i * 20 + j) (init_tile (i : Int) (j : Int))) scr) scr k =
        if k < m * 20 then init_board k else scr k := by
  intro m
  induction m with
  | zero => intro k; simp
  | succ m ih =>
    intro k
    have hrs : List.range (m + 1) = List.range m ++ [m] := List.range_succ m
    rw [hrs, List.foldl_append]
    simp only [List.foldl_cons, List.foldl_nil]
    rw [foldl_update_range (fun j => init_tile (m : Int) (j : Int)) (m * 20) 20, ih]
    by_cases h1 : m * 20 ≤ k ∧ k < m * 20 + 20
    · rw [if_pos h1, if_pos (by omega)]
      have e1 : k / 20 = m := by omega
      have e2 : k % 20 = k - m * 20 := by omega
      simp only [init_board, e1, e2]
    · rw [if_neg h1]
      by_cases h2 : k < m * 20
      · rw [if_pos h2, if_pos (by omega)]
      · rw [if_neg h2, if_neg (by omega)]

theorem init_scr_eq (scr : Nat → Int) (k : Nat) (hk : k < 400) :
    init_scr scr k = init_board k := by
  unfold init_scr
  rw [init_rows scr 20 k, if_pos (by omega)]

/-- C8 (as amended): with `tick_interval = 1000`, no completed lines, an active
piece with `pos = next_pos` at row 5 and no collision at row 6, `update(msec)`
with `msec - prev_tick = 1000` performs exactly one gravity step (the confirmed
and the pending row become 6, `prev_tick` becomes `msec`) and returns 1000, the
full interval to the next tick. -/
theorem gravity_step (pieces : PieceTable) (spawn : SpawnTable) (rnd : Nat) (s : Game)
    (msec : Int) (hti : s.tick_interval = 1000) (hn : s.num_complines = 0)
    (hp : 0 ≤ s.cur_piece) (hpos : s.next_pos = s.pos) (hrow : s.pos.1 = 5)
    (hfree : collision pieces s s.cur_piece (6, s.pos.2) = some false)
    (hdt : msec - s.prev_tick = 1000) :
    update pieces spawn rnd s msec =
      some ({ s with next_pos := (6, s.pos.2), prev_tick := msec, pos := (6, s.pos.2),
                     prev_rot := s.cur_rot }, 1000) := by
  have hfuel : fall_fuel (msec - s.prev_tick) s.tick_interval = 1 := by
    rw [hdt, hti]; decide
  have h6 : (6 : Int) = s.pos.1 + 1 := by omega
  have hcol : collision pieces { s with next_pos := (s.pos.1 + 1, s.next_pos.2) } s.cur_piece
      (s.pos.1 + 1, s.next_pos.2) = some false := by
    rw [hpos, ← h6]
    exact (collision_congr _ _ _ _ _ rfl rfl).trans hfree
  have hge : s.tick_interval ≤ 1000 := by omega
  have hlt : ¬ (s.tick_interval ≤ 1000 - s.tick_interval) := by omega
  have hloop : fall_loop pieces spawn rnd msec 1 s (msec - s.prev_tick) =
      some (LoopExit.done { s with next_pos := (s.pos.1 + 1, s.next_pos.2), prev_tick := msec }
        (1000 - s.tick_interval)) := by
    rw [hdt]
    simp only [fall_loop, ge_iff_le, hge, if_true, hp, hcol, hlt, if_false]
  have hne : ¬ (s.pos = (s.pos.1 + 1, s.next_pos.2)) := by
    intro h
    have := congrArg Prod.fst h
    simp only at this
    omega
  unfold update
  simp only [hn, ne_eq, not_true_eq_false, if_false, hfuel, hloop, hp, hne, not_false_eq_true,
    true_or, and_self, if_true]
  rw [hpos, ← h6, hti]
  rfl


/-- C8 at a concrete input: the lying straight piece at row 5 of the initial
board, one tick after the previous one. -/
theorem gravity_step_witness :
    update sample_pieces sample_spawn 0 open_game 1000 =
      some ({ open_game with next_pos := (6, open_game.pos.2), prev_tick := 1000,
                             pos := (6, open_game.pos.2), prev_rot := open_game.cur_rot },
        1000) :=
  gravity_step sample_pieces sample_spawn 0 open_game 1000 rfl rfl (by decide) rfl rfl
    (by decide) (by decide)

/-- C8 (counterexample to the claim as stated): in the gravity scenario on the
initial board `update` moves the piece to row 6 and returns 1000, not 0. -/
theorem gravity_returns_interval :
    open_game.tick_interval = 1000 ∧ open_game.num_complines = 0 ∧
    0 ≤ open_game.cur_piece ∧ open_game.pos = open_game.next_pos ∧ open_game.pos.1 = 5 ∧
    collision sample_pieces open_game open_game.cur_piece (6, open_game.pos.2) = some false ∧
    (1000 : Int) - open_game.prev_tick = 1000 ∧
    (update sample_pieces sample_spawn 0 open_game 1000).map (fun r => (r.1.pos.1, r.2)) =
      some (6, 1000) ∧
    (update sample_pieces sample_spawn 0 open_game 1000).map (fun r => r.2) ≠ some 0 := by
  refine ⟨rfl, rfl, by decide, rfl, rfl, by decide, by decide, by decide, by decide⟩

theorem erase_completed_single (s : Game) (r : Nat) (hn : s.num_complines = 1)
    (hr : s.complines 0 = (r : Int)) (hr18 : r < 18) :
    ∃ scr', erase_completed s = some { s with scr := scr' } ∧
      ∀ k, scr' k = shift_down s.scr r k := by
  obtain ⟨scr', h1, h2⟩ := compact_loop_single s.complines r hr hr18 s.scr
  refine ⟨scr', ?_, h2⟩
  have hsort : sort_complines 1 s.complines = s.complines := by
    simp [sort_complines]
  unfold erase_completed
  simp only [hn, gt_iff_lt, show ¬ ((4 : Int) < 1) by omega, if_false,
    show (1 : Int).toNat = 1 from rfl, hsort, h1]

theorem blink_phase (dt : Int) (h1 : -549755813888 ≤ dt) (h2 : dt < 549755813888) :
    to_int (dt >>> (8 : Nat)) = dt / 256 := by
  rw [Int.shiftRight_eq_div_pow]
  unfold to_int
  norm_num
  omega

/-- C9 (as amended): in a state with exactly one completed row `r` (0..17), as
`update` leaves it after a lock, the blink phase is counted from `prev_tick`,
and it is `(t - prev_tick) div 256` as long as that fits the `int` it is stored
in (`-2^39 <= t - prev_tick < 2^39`).  Every `update` call at a time `t` with
`-2^39 <= t - prev_tick < 7 * 256` leaves the whole state (board and
completed-lines set included) unchanged and returns 100; a call with
`7 * 256 <= t - prev_tick < 2^39` performs the compaction and returns 0:
afterwards `num_complines = 0`, every playfield row `i` in 1..r holds the former
row `i - 1`, and the rows below `r` and all cells outside the playfield columns
are unchanged. -/
theorem blink_then_compact (pieces : PieceTable) (spawn : SpawnTable) (rnd : Nat) (s : Game)
    (r : Nat) (hn : s.num_complines = 1) (hr : s.complines 0 = (r : Int)) (hr18 : r < 18) :
    (∀ t : Int, -549755813888 ≤ t - s.prev_tick → t - s.prev_tick < 7 * 256 →
      update pieces spawn rnd s t = some (s, 100)) ∧
    (∀ t : Int, 7 * 256 ≤ t - s.prev_tick → t - s.prev_tick < 549755813888 →
      ∃ s', update pieces spawn rnd s t = some (s', 0) ∧
        s' = { s with scr := s'.scr, num_complines := 0 } ∧
        (∀ i j : Nat, 1 ≤ i → i ≤ r → j < 10 →
          s'.scr (i * 20 + 2 + j) = s.scr ((i - 1) * 20 + 2 + j)) ∧
        (∀ k : Nat, r < k / 20 ∨ k % 20 < 2 ∨ 12 ≤ k % 20 → s'.scr k = s.scr k)) := by
  have hn0 : s.num_complines ≠ 0 := by omega
  constructor
  · intro t hlo ht
    have hb := blink_phase (t - s.prev_tick) hlo (by omega)
    have h6 : ¬ ((t - s.prev_tick) / 256 > 6) := by omega
    have h4 : ¬ (s.num_complines > 4) := by omega
    unfold update
    simp only [hn0, ne_eq, not_false_eq_true, if_true, hb, h6, if_false, h4,
      BLINK_UPD_RATE]
  · intro t ht hhi
    have hb := blink_phase (t - s.prev_tick) (by omega) hhi
    have h6 : (t - s.prev_tick) / 256 > 6 := by omega
    obtain ⟨scr', he, hk⟩ := erase_completed_single s r hn hr hr18
    refine ⟨{ s with scr := scr', num_complines := 0 }, ?_, rfl, ?_, ?_⟩
    · unfold update
      simp only [hn0, ne_eq, not_false_eq_true, if_true, hb, h6, he]
    · intro i j hi1 hir hj
      show scr' (i * 20 + 2 + j) = _
      rw [hk, shift_down, if_pos (by omega)]
      congr 1
      omega
    · intro k hk'
      show scr' k = _
      rw [hk, shift_down, if_neg (by omega)]

/-- C9 at a concrete input: `tall_game`, where row 17 is the completed row. -/
theorem blink_then_compact_witness :
    (∀ t : Int, -549755813888 ≤ t - tall_game.prev_tick → t - tall_game.prev_tick < 7 * 256 →
      update sample_pieces sample_spawn 0 tall_game t = some (tall_game, 100)) ∧
    (∀ t : Int, 7 * 256 ≤ t - tall_game.prev_tick → t - tall_game.prev_tick < 549755813888 →
      ∃ s', update sample_pieces sample_spawn 0 tall_game t = some (s', 0) ∧
        s' = { tall_game with scr := s'.scr, num_complines := 0 } ∧
        (∀ i j : Nat, 1 ≤ i → i ≤ 17 → j < 10 →
          s'.scr (i * 20 + 2 + j) = tall_game.scr ((i - 1) * 20 + 2 + j)) ∧
        (∀ k : Nat, 17 < k / 20 ∨ k % 20 < 2 ∨ 12 ≤ k % 20 → s'.scr k = tall_game.scr k)) :=
  blink_then_compact sample_pieces sample_spawn 0 tall_game 17 rfl rfl (by decide)

/-- Outside that range the narrowed phase wraps: in `tall_game` (`prev_tick = 0`)
the calls at `2^39` and `2^40` see the phases `-2^31` and 0 and return 100, and
the call at `-2^39 - 256` sees the phase `2^31 - 1` and compacts. -/
theorem blink_phase_wraps :
    to_int ((549755813888 : Int) >>> (8 : Nat)) = -2147483648 ∧
    to_int ((1099511627776 : Int) >>> (8 : Nat)) = 0 ∧
    (update sample_pieces sample_spawn 0 tall_game 549755813888).map (fun r => r.2) =
      some 100 ∧
    (update sample_pieces sample_spawn 0 tall_game 1099511627776).map (fun r => r.2) =
      some 100 ∧
    (update sample_pieces sample_spawn 0 tall_game (-549755813888 - 256)).map (fun r => r.2) =
      some 0 := by
  refine ⟨by decide, by decide, by decide, by decide, by decide⟩

/-- C9 (counterexample to the claim as stated): the `update` call at T = 1000,
one tick after `prev_tick = 0`, locks the straight piece of `gap_game` and
completes row 17; the calls at T + 256, T + 512 and T + 768 return 100 and
change nothing, and the call at T + 256 * 4 already returns 0 with the
compaction done. -/
theorem blink_ends_early :
    ∃ s1, update sample_pieces sample_spawn 0 gap_game 1000 = some (s1, 0) ∧
      s1.cur_piece = -1 ∧ s1.num_complines = 1 ∧ s1.complines 0 = 17 ∧
      update sample_pieces sample_spawn 0 s1 (1000 + 256 * 1) = some (s1, 100) ∧
      update sample_pieces sample_spawn 0 s1 (1000 + 256 * 2) = some (s1, 100) ∧
      update sample_pieces sample_spawn 0 s1 (1000 + 256 * 3) = some (s1, 100) ∧
      ∃ s2, update sample_pieces sample_spawn 0 s1 (1000 + 256 * 4) = some (s2, 0) ∧
        s2.num_complines = 0 ∧ s1.scr (17 * 20 + 2) = 3 ∧ s2.scr (17 * 20 + 2) = TILE_PF :=
  ⟨_, rfl, rfl, rfl, rfl, rfl, rfl, rfl, _, rfl, rfl, by decide, by decide⟩


/-! ## The lock performed by update -/

/-- The board effect of the loop of `stick` for cells inside the playfield; the
cells need not be empty nor distinct. -/
theorem stick_cells_board (piece : Int) (pos : Int × Int) :
    ∀ (cs : List Nat) (s : Game),
      (∀ c ∈ cs, 0 ≤ pos.1 + BLKY c ∧ pos.1 + BLKY c < 18 ∧
        0 ≤ pos.2 + BLKX c ∧ pos.2 + BLKX c < 10) →
      0 ≤ s.num_complines → s.num_complines + cs.length ≤ 4 →
      ∃ s' : Game, stick_cells piece pos s cs = some s' ∧
        (∀ c ∈ cs, s'.scr (pf_index (pos.1 + BLKY c) (pos.2 + BLKX c)).toNat =
          piece + FIRST_PIECE_TILE) ∧
        (∀ idx, (∀ c ∈ cs, idx ≠ (pf_index (pos.1 + BLKY c) (pos.2 + BLKX c)).toNat) →
          s'.scr idx = s.scr idx) ∧
        s.num_complines ≤ s'.num_complines ∧
        s'.num_complines ≤ s.num_complines + cs.length ∧
        s' = { s with scr := s'.scr, complines := s'.complines,
                      num_complines := s'.num_complines } := by
  intro cs
  induction cs with
  | nil =>
    intro s _ _ _
    exact ⟨s, rfl, by simp, by simp, le_rfl, by simp, rfl⟩
  | cons c cs ih =>
    intro s hrange hn0 hn4
    obtain ⟨hy0, hy1, hx0, hx1⟩ := hrange c (List.mem_cons_self _ _)
    obtain ⟨k, _, hstep⟩ := stick_cells_cons piece pos s c cs hy0 hy1 hx0 hx1
    have htail_range : ∀ d ∈ cs, 0 ≤ pos.1 + BLKY d ∧ pos.1 + BLKY d < 18 ∧
        0 ≤ pos.2 + BLKX d ∧ pos.2 + BLKX d < 10 :=
      fun d hd => hrange d (List.mem_cons_of_mem _ hd)
    have hput_self : (put_cell s.scr piece pos c)
        (pf_index (pos.1 + BLKY c) (pos.2 + BLKX c)).toNat = piece + FIRST_PIECE_TILE := by
      unfold put_cell; exact Function.update_same _ _ _
    have hlen : ((c :: cs).length : Int) = (cs.length : Int) + 1 := by
      simp only [List.length_cons]; push_cast; ring
    rw [hlen] at hn4
    have key : ∀ s1 : Game, s1.scr = put_cell s.scr piece pos c →
        s.num_complines ≤ s1.num_complines → s1.num_complines ≤ s.num_complines + 1 →
        s1 = { s with scr := s1.scr, complines := s1.complines,
                      num_complines := s1.num_complines } →
        stick_cells piece pos s (c :: cs) = stick_cells piece pos s1 cs →
        ∃ s' : Game, stick_cells piece pos s (c :: cs) = some s' ∧
          (∀ d ∈ c :: cs, s'.scr (pf_index (pos.1 + BLKY d) (pos.2 + BLKX d)).toNat =
            piece + FIRST_PIECE_TILE) ∧
          (∀ idx, (∀ d ∈ c :: cs,
            idx ≠ (pf_index (pos.1 + BLKY d) (pos.2 + BLKX d)).toNat) →
            s'.scr idx = s.scr idx) ∧
          s.num_complines ≤ s'.num_complines ∧
          s'.num_complines ≤ s.num_complines + ((c :: cs).length : Int) ∧
          s' = { s with scr := s'.scr, complines := s'.complines,
                        num_complines := s'.num_complines } := by
      intro s1 hscr hlo hhi hs1 hrun
      obtain ⟨s', hs', hcell, hframe, hnlo, hnhi, heq⟩ :=
        ih s1 htail_range (by omega) (by omega)
      refine ⟨s', hrun.trans hs', ?_, ?_, by omega, by rw [hlen]; omega, ?_⟩
      · intro d hd
        rcases List.mem_cons.mp hd with rfl | hd
        · by_cases hex : ∃ e ∈ cs, (pf_index (pos.1 + BLKY d) (pos.2 + BLKX d)).toNat =
              (pf_index (pos.1 + BLKY e) (pos.2 + BLKX e)).toNat
          · obtain ⟨e, he, hidx⟩ := hex
            rw [hidx]; exact hcell e he
          · rw [hframe _ (fun e he h => hex ⟨e, he, h⟩), hscr]
            exact hput_self
        · exact hcell d hd
      · intro idx hidx
        rw [hframe idx (fun d hd => hidx d (List.mem_cons_of_mem _ hd)), hscr]
        unfold put_cell
        exact Function.update_noteq (hidx c (List.mem_cons_self _ _)) _ _
      · conv_lhs => rw [heq]
        rw [hs1]
    by_cases hk0 : k = 0
    · have hwc : wr s.complines 4 s.num_complines (pos.1 + BLKY c) =
          some (Function.update s.complines s.num_complines.toNat (pos.1 + BLKY c)) :=
        wr_eq_some _ hn0 (by push_cast; omega)
      exact key { s with scr := put_cell s.scr piece pos c,
                         complines := Function.update s.complines s.num_complines.toNat
                           (pos.1 + BLKY c),
                         num_complines := s.num_complines + 1 }
        rfl (by simp only; omega) (by simp only; omega) rfl
        (by rw [hstep, if_pos hk0, hwc])
    · exact key { s with scr := put_cell s.scr piece pos c }
        rfl le_rfl (by simp only; omega) rfl (by rw [hstep, if_neg hk0])

theorem fall_fuel_pos (dt ti : Int) (h : ti ≤ dt) : ∃ f, fall_fuel dt ti = f + 1 := by
  unfold fall_fuel
  by_cases hti : 0 < ti
  · rw [if_pos hti]
    have h1 : 1 ≤ dt / ti := (Int.le_ediv_iff_mul_le hti).mpr (by omega)
    exact ⟨(dt / ti).toNat - 1, by omega⟩
  · rw [if_neg hti]
    exact ⟨1, rfl⟩

/-- C10 (as amended): in falling mode (no completed lines) with an active piece,
a gravity tick due and the test one row below colliding, `update` locks the
piece at the confirmed row `pos[0]`, the pending column `next_pos[1]` and the
pending rotation `cur_rot`: when the 4 cells of that placement lie in the
playfield, `update` returns 0, exactly these cells receive the piece tile, every
other board cell is unchanged, `cur_piece` is -1 and `prev_tick` is unchanged
(no further tick is processed). -/
theorem lock_at_pending (pieces : PieceTable) (spawn : SpawnTable) (rnd : Nat) (s : Game)
    (msec : Int) (hn : s.num_complines = 0)
    (hp : 0 ≤ s.cur_piece ∧ s.cur_piece < 7) (hr : 0 ≤ s.cur_rot ∧ s.cur_rot < 4)
    (hdue : s.tick_interval ≤ msec - s.prev_tick)
    (hcol : collision pieces s s.cur_piece (s.pos.1 + 1, s.next_pos.2) = some true)
    (hin : ∀ i, i < 4 →
      0 ≤ lock_y pieces s.cur_piece s.cur_rot (s.pos.1, s.next_pos.2) i ∧
      lock_y pieces s.cur_piece s.cur_rot (s.pos.1, s.next_pos.2) i < 18 ∧
      0 ≤ lock_x pieces s.cur_piece s.cur_rot (s.pos.1, s.next_pos.2) i ∧
      lock_x pieces s.cur_piece s.cur_rot (s.pos.1, s.next_pos.2) i < 10) :
    ∃ s', update pieces spawn rnd s msec = some (s', 0) ∧ s'.cur_piece = -1 ∧
      (∀ i, i < 4 →
        s'.scr (pf_index (lock_y pieces s.cur_piece s.cur_rot (s.pos.1, s.next_pos.2) i)
          (lock_x pieces s.cur_piece s.cur_rot (s.pos.1, s.next_pos.2) i)).toNat =
            s.cur_piece + FIRST_PIECE_TILE) ∧
      (∀ idx, (∀ i, i < 4 → idx ≠
        (pf_index (lock_y pieces s.cur_piece s.cur_rot (s.pos.1, s.next_pos.2) i)
          (lock_x pieces s.cur_piece s.cur_rot (s.pos.1, s.next_pos.2) i)).toNat) →
        s'.scr idx = s.scr idx) ∧
      s'.prev_tick = s.prev_tick ∧ s'.pos = s.pos ∧
      s'.next_pos = (s.pos.1, s.next_pos.2) ∧
      s'.cur_rot = s.cur_rot ∧ s'.prev_rot = s.prev_rot := by
  obtain ⟨f, hf⟩ := fall_fuel_pos (msec - s.prev_tick) s.tick_interval hdue
  have hcol' : collision pieces { s with next_pos := (s.pos.1 + 1, s.next_pos.2) } s.cur_piece
      (s.pos.1 + 1, s.next_pos.2) = some true :=
    (collision_congr _ _ _ _ _ rfl rfl).trans hcol
  obtain ⟨s3, hs3, hcell, hframe, _, _, heq⟩ := stick_cells_board s.cur_piece
    (s.pos.1, s.next_pos.2) (piece_cells pieces s.cur_piece.toNat s.cur_rot.toNat)
    { s with next_pos := (s.pos.1, s.next_pos.2) }
    (by
      intro c hc
      obtain ⟨i, hi, rfl⟩ := mem_piece_cells.mp hc
      exact hin i hi)
    (by simp only; omega) (by simp [piece_cells, hn])
  have h7 : s.cur_piece < NUM_PIECES := hp.2
  have hstick : stick pieces { s with next_pos := (s.pos.1, s.next_pos.2) } s.cur_piece
      (s.pos.1, s.next_pos.2) = some s3 := by
    simp only [stick, hp.1, h7, hr.1, hr.2, and_self, if_true]
    exact hs3
  have hloop : fall_loop pieces spawn rnd msec (f + 1) s (msec - s.prev_tick) =
      some (LoopExit.returned { s3 with cur_piece := -1 } 0) := by
    simp only [fall_loop, ge_iff_le, hdue, if_true, hp.1, hcol', hstick]
  refine ⟨{ s3 with cur_piece := -1 }, ?_, rfl, ?_, ?_, ?_, ?_, ?_, ?_, ?_⟩
  · unfold update
    simp only [hn, ne_eq, not_true_eq_false, if_false, hf, hloop]
  · intro i hi
    exact hcell _ (mem_piece_cells.mpr ⟨i, hi, rfl⟩)
  · intro idx hidx
    apply hframe
    intro c hc
    obtain ⟨i, hi, rfl⟩ := mem_piece_cells.mp hc
    exact hidx i hi
  · show s3.prev_tick = _
    rw [heq]
  · show s3.pos = _
    rw [heq]
  · show s3.next_pos = _
    rw [heq]
  · show s3.cur_rot = _
    rw [heq]
  · show s3.prev_rot = _
    rw [heq]

/-- C10 at a concrete input: the straight piece of `gap_game` resting on the
floor with no move pending. -/
theorem lock_at_pending_witness :
    ∃ s', update sample_pieces sample_spawn 0 gap_game 1000 = some (s', 0) ∧
      s'.cur_piece = -1 ∧
      (∀ i, i < 4 →
        s'.scr (pf_index
          (lock_y sample_pieces gap_game.cur_piece gap_game.cur_rot
            (gap_game.pos.1, gap_game.next_pos.2) i)
          (lock_x sample_pieces gap_game.cur_piece gap_game.cur_rot
            (gap_game.pos.1, gap_game.next_pos.2) i)).toNat =
            gap_game.cur_piece + FIRST_PIECE_TILE) ∧
      (∀ idx, (∀ i, i < 4 → idx ≠
        (pf_index
          (lock_y sample_pieces gap_game.cur_piece gap_game.cur_rot
            (gap_game.pos.1, gap_game.next_pos.2) i)
          (lock_x sample_pieces gap_game.cur_piece gap_game.cur_rot
            (gap_game.pos.1, gap_game.next_pos.2) i)).toNat) →
        s'.scr idx = gap_game.scr idx) ∧
      s'.prev_tick = gap_game.prev_tick ∧ s'.pos = gap_game.pos ∧
      s'.next_pos = (gap_game.pos.1, gap_game.next_pos.2) ∧
      s'.cur_rot = gap_game.cur_rot ∧ s'.prev_rot = gap_game.prev_rot :=
  lock_at_pending sample_pieces sample_spawn 0 gap_game 1000 rfl (by decide) (by decide)
    (by decide) (by decide) (by decide)

/-- C10 (counterexample to the claim as stated): in `floor_game` the piece is
confirmed at column 3 with a shift to column 2 pending; the lock writes row 17,
column 2 (index 344) and leaves row 17, column 6 (index 348), a cell of the
confirmed placement, empty. -/
theorem lock_uses_pending_column :
    floor_game.pos = (15, 3) ∧ floor_game.next_pos = (15, 2) ∧
    floor_game.num_complines = 0 ∧
    floor_game.tick_interval ≤ 1000 - floor_game.prev_tick ∧
    collision sample_pieces floor_game floor_game.cur_piece
      (floor_game.pos.1 + 1, floor_game.next_pos.2) = some true ∧
    (update sample_pieces sample_spawn 0 floor_game 1000).map
      (fun r => (r.1.scr 344, r.1.scr 348, r.1.cur_piece, r.2)) = some (3, TILE_PF, -1, 0) := by
  refine ⟨rfl, rfl, rfl, by decide, by decide, by decide⟩


/-! ## The input decoder -/

/-- C11: from a decoder in NORMAL mode the bytes 0x1B, 0x1B are accepted and the
resulting state is the initial one with `quit = 1`: the board, the piece state,
the completed-lines set and the decoder are as before. -/
theorem quit_scenario (pieces : PieceTable) (s : Game) (hesc : s.esc = 0) (hcsi : s.csi = 0) :
    feed pieces s [27, 27] = some { s with quit := 1 } := by
  cases s
  simp only at hesc hcsi
  subst hesc hcsi
  rfl

/-- C11 at a concrete input: the state `open_game`. -/
theorem quit_scenario_witness :
    feed sample_pieces open_game [27, 27] = some { open_game with quit := 1 } :=
  quit_scenario sample_pieces open_game rfl rfl

/-- C12: from a decoder in NORMAL mode the bytes 0x1B, '[', 0x01 are accepted and
leave `esc = 0` and `csi = 0`; `quit`, the piece state, the board and the
completed-lines set are unchanged.  The control byte is stored in `escbuf[0]`
and `esctop` is left at 1. -/
theorem malformed_escape (pieces : PieceTable) (s : Game) (hesc : s.esc = 0)
    (hcsi : s.csi = 0) :
    feed pieces s [27, 91, 1] =
      some { s with esctop := 1, escbuf := Function.update s.escbuf 0 1 } := by
  cases s
  simp only at hesc hcsi
  subst hesc hcsi
  rfl

/-- C12 at a concrete input: the state `open_game`. -/
theorem malformed_escape_witness :
    feed sample_pieces open_game [27, 91, 1] =
      some { open_game with esctop := 1, escbuf := Function.update open_game.escbuf 0 1 } :=
  malformed_escape sample_pieces open_game rfl rfl


/-- C13 (the code at the failing input): after the aborted sequence 0x1B, '[',
0x01 the decoder of `open_game` is in NORMAL mode with `esctop = 1`; the arrow
sequence 0x1B, '[', 'A' then leaves the decoder in NORMAL mode but does not
rotate the piece (`cur_rot` stays 0), while the byte 'w' rotates it. -/
theorem arrow_after_abort :
    ∃ s1, feed sample_pieces open_game [27, 91, 1] = some s1 ∧
      s1.esc = 0 ∧ s1.csi = 0 ∧ s1.esctop = 1 ∧
      (feed sample_pieces s1 [27, 91, 65]).map (fun s => (s.cur_rot, s.esc, s.csi)) =
        some (0, 0, 0) ∧
      (game_input sample_pieces s1 119).map (fun s => s.cur_rot) = some 1 :=
  ⟨_, rfl, rfl, rfl, rfl, by decide, by decide⟩

/-- C14 (as amended): from a decoder in NORMAL mode, the byte 0x1B followed by a
byte `c` other than 0x1B, '[' and 'O' has exactly the effect of `game_input(c)`
alone: the ESC is forgotten and `c` is handled by the NORMAL-mode switch. -/
theorem byte_after_esc (pieces : PieceTable) (s : Game) (c : Int) (hesc : s.esc = 0)
    (hcsi : s.csi = 0) (hc : c ≠ 27 ∧ c ≠ 91 ∧ c ≠ 79) :
    feed pieces s [27, c] = game_input pieces s c := by
  obtain ⟨h1, h2, h3⟩ := hc
  have e1 : game_input pieces s 27 = some { s with esc := 1 } := by
    rw [game_input_normal pieces s 27 hesc hcsi]
    simp [input_switch]
  have e2 : game_input pieces { s with esc := 1 } c =
      input_csi pieces (game_input_depth pieces 1) { s with esc := 0 } c := by
    simp [game_input, game_input_depth, h1, h2, h3]
  have e3 : game_input pieces s c = input_csi pieces (game_input_depth pieces 1) s c := by
    simp [game_input, game_input_depth, hesc]
  have e4 : { s with esc := 0 } = s := by
    cases s
    simp only at hesc
    subst hesc
    rfl
  simp only [feed, e1, e2, e3, e4]
  cases input_csi pieces (game_input_depth pieces 1) s c <;> rfl

/-- C14 at a concrete input: 0x1B followed by 'a' in `open_game`. -/
theorem byte_after_esc_witness :
    feed sample_pieces open_game [27, 97] = game_input sample_pieces open_game 97 :=
  byte_after_esc sample_pieces open_game 97 rfl rfl (by decide)

/-- C14 (counterexample to the claim as stated): in `open_game` the bytes 0x1B,
'q' set `quit`, and the bytes 0x1B, 'a' move the pending column from 3 to 2. -/
theorem esc_then_command_runs :
    open_game.esc = 0 ∧ open_game.csi = 0 ∧ open_game.esctop = 0 ∧
    open_game.quit = 0 ∧ open_game.next_pos = (5, 3) ∧
    (feed sample_pieces open_game [27, 113]).map (fun s => s.quit) = some 1 ∧
    (feed sample_pieces open_game [27, 97]).map (fun s => s.next_pos) = some (5, 2) := by
  refine ⟨rfl, rfl, rfl, rfl, rfl, by decide, by decide⟩

/-- C17 (the code at the failing input): after 0x1B, '[' and 64 bytes '0' the
buffer length `esctop` is 64, and the next byte '0' is written at index 64,
outside `escbuf`; after 0x1B, '[' and 63 bytes '0' a final byte 'A' is stored at
index 63 and the terminating 0 is written at index 64. -/
theorem escbuf_overflow :
    start_game.esc = 0 ∧ start_game.csi = 0 ∧ start_game.esctop = 0 ∧
    (feed sample_pieces start_game ([27, 91] ++ List.replicate 64 48)).map
      (fun s => (s.esctop, (wr s.escbuf 64 s.esctop (to_char 48)).isNone)) = some (64, true) ∧
    (feed sample_pieces start_game ([27, 91] ++ List.replicate 65 48)).isNone = true ∧
    (feed sample_pieces start_game ([27, 91] ++ List.replicate 63 48)).map
      (fun s => (s.esctop, s.csi)) = some (63, C0) ∧
    (feed sample_pieces start_game ([27, 91] ++ List.replicate 63 48 ++ [65])).isNone = true := by
  refine ⟨rfl, rfl, rfl, by decide, by decide, by decide, by decide⟩

/-- C20 (the code at the failing input): in `start_game` no piece is active
(`cur_piece = -1`) and the decoder is in NORMAL mode; each of the bytes 'a', 'd',
's', 'w', ' ' makes `game_input` call `collision` with piece index -1, which
looks up `pieces[-1]`. -/
theorem input_without_piece :
    start_game.cur_piece = -1 ∧ start_game.esc = 0 ∧ start_game.csi = 0 ∧
    (∀ c ∈ [(97 : Int), 100, 115, 119, 32],
      (game_input sample_pieces start_game c).isNone = true) ∧
    (∀ pos : Int × Int, collision sample_pieces start_game (-1) pos = none) := by
  refine ⟨rfl, rfl, rfl, by decide, fun pos => rfl⟩


/-! ## The board after init_game -/

theorem init_game_cell (s : Game) (r c : Nat) (hr : r < 20) (hc : c < 20) :
    (init_game s).scr (r * 20 + c) = init_tile (r : Int) (c : Int) := by
  have h : (init_game s).scr (r * 20 + c) = init_board (r * 20 + c) :=
    init_scr_eq s.scr _ (by omega)
  have e1 : (r * 20 + c) / 20 = r := by omega
  have e2 : (r * 20 + c) % 20 = c := by omega
  rw [h]
  simp only [init_board, e1, e2]

/-- C15: after `init_game`, for every row `r` and screen column `c` in 0..19, the
cell `scr[r*20+c]` is `TILE_PF` iff `r <= 17` and `2 <= c <= 11`; it is
`TILE_PFSEP` iff (`r <= 18` and `c` is 1 or 12) or (`r = 18` and `2 <= c <= 11`);
every other cell is `TILE_BLACK`. -/
theorem init_layout (s : Game) (r c : Nat) (hr : r < 20) (hc : c < 20) :
    ((init_game s).scr (r * 20 + c) = TILE_PF ↔ r ≤ 17 ∧ 2 ≤ c ∧ c ≤ 11) ∧
    ((init_game s).scr (r * 20 + c) = TILE_PFSEP ↔
      (r ≤ 18 ∧ (c = 1 ∨ c = 12)) ∨ (r = 18 ∧ 2 ≤ c ∧ c ≤ 11)) ∧
    (¬ (r ≤ 17 ∧ 2 ≤ c ∧ c ≤ 11) →
      ¬ ((r ≤ 18 ∧ (c = 1 ∨ c = 12)) ∨ (r = 18 ∧ 2 ≤ c ∧ c ≤ 11)) →
      (init_game s).scr (r * 20 + c) = TILE_BLACK) := by
  rw [init_game_cell s r c hr hc]
  unfold init_tile
  simp only [PF_ROWS, PF_XOFFS, PF_COLS, TILE_BLACK, TILE_PFSEP, TILE_PF]
  split_ifs with h1 h2
  · refine ⟨?_, ?_, ?_⟩
    · constructor
      · intro h; omega
      · intro h; omega
    · constructor
      · intro h; omega
      · intro h; omega
    · intro _ _; rfl
  · refine ⟨?_, ?_, ?_⟩
    · constructor
      · intro h; omega
      · intro h; omega
    · constructor
      · intro _; omega
      · intro _; rfl
    · intro _ h; omega
  · refine ⟨?_, ?_, ?_⟩
    · constructor
      · intro _; omega
      · intro _; rfl
    · constructor
      · intro h; omega
      · intro h; omega
    · intro h _; omega

/-- C15 at a concrete input: the cell in row 18, column 5 (the floor under the
playfield) of the board built over `start_game`. -/
theorem init_layout_witness :
    ((init_game start_game).scr (18 * 20 + 5) = TILE_PF ↔ 18 ≤ 17 ∧ 2 ≤ 5 ∧ 5 ≤ 11) ∧
    ((init_game start_game).scr (18 * 20 + 5) = TILE_PFSEP ↔
      (18 ≤ 18 ∧ (5 = 1 ∨ 5 = 12)) ∨ (18 = 18 ∧ 2 ≤ 5 ∧ 5 ≤ 11)) ∧
    (¬ (18 ≤ 17 ∧ 2 ≤ 5 ∧ 5 ≤ 11) →
      ¬ ((18 ≤ 18 ∧ (5 = 1 ∨ 5 = 12)) ∨ (18 = 18 ∧ 2 ≤ 5 ∧ 5 ≤ 11)) →
      (init_game start_game).scr (18 * 20 + 5) = TILE_BLACK) :=
  init_layout start_game 18 5 (by decide) (by decide)

/-! ## stick above the board -/

/-- C18 (the code at the failing input): on the initial board, whose `TILE_PF`
cells are exactly the playfield cells, `collision` returns 0 for the hooked piece
at row -1, column 0, and `stick` writes its first cell in row -1, at index -18 of
`scr`.  In play: on `high_board` the same placement is collision-free, the test
one row below collides, and the `update` call of the next tick runs this
`stick`. -/
theorem stick_above_board :
    (∀ k : Nat, k < 400 →
      (init_board k = TILE_PF ↔ in_playfield ((k / 20 : Nat) : Int) ((k % 20 : Nat) : Int))) ∧
    collision sample_pieces hook_game 1 (-1, 0) = some false ∧
    lock_y sample_pieces 1 hook_game.cur_rot (-1, 0) 0 = -1 ∧
    pf_index (lock_y sample_pieces 1 hook_game.cur_rot (-1, 0) 0)
      (lock_x sample_pieces 1 hook_game.cur_rot (-1, 0) 0) = -18 ∧
    (stick sample_pieces hook_game 1 (-1, 0)).isNone = true ∧
    pf_only_inside high_game.scr ∧
    collision sample_pieces high_game high_game.cur_piece high_game.next_pos = some false ∧
    collision sample_pieces high_game high_game.cur_piece
      (high_game.pos.1 + 1, high_game.next_pos.2) = some true ∧
    (update sample_pieces sample_spawn 0 high_game 1000).isNone = true := by
  refine ⟨?_, by decide, by decide, by decide, by decide, ?_, by decide, by decide,
    by decide⟩
  · intro k hk
    simp only [init_board, init_tile, in_playfield, PF_ROWS, PF_XOFFS, PF_COLS, TILE_BLACK,
      TILE_PFSEP, TILE_PF]
    split_ifs <;> constructor <;> intro h <;> omega
  · unfold pf_only_inside
    decide


/-! ## The capacity of complines -/

theorem stick_cells_num (piece : Int) (pos : Int × Int) :
    ∀ (cs : List Nat) (s s' : Game), stick_cells piece pos s cs = some s' →
      s.num_complines ≤ s'.num_complines ∧
        s'.num_complines ≤ s.num_complines + (cs.length : Int) := by
  intro cs
  induction cs with
  | nil =>
    intro s s' h
    simp only [stick_cells, Option.some.injEq] at h
    subst h
    simp
  | cons c cs ih =>
    intro s s' h
    simp only [stick_cells] at h
    split at h
    · exact absurd h (by simp)
    · split at h
      · exact absurd h (by simp)
      · split_ifs at h
        · split at h
          · exact absurd h (by simp)
          · have := ih _ _ h
            simp only [List.length_cons] at this ⊢
            push_cast
            omega
        · have := ih _ _ h
          simp only [List.length_cons] at this ⊢
          push_cast
          omega

theorem stick_write_indices_bound (piece : Int) (pos : Int × Int) :
    ∀ (cs : List Nat) (s : Game), ∀ i ∈ stick_write_indices piece pos s cs,
      s.num_complines ≤ i ∧ i < s.num_complines + (cs.length : Int) := by
  intro cs
  induction cs with
  | nil => intro s i hi; simp [stick_write_indices] at hi
  | cons c cs ih =>
    intro s i hi
    simp only [stick_write_indices] at hi
    simp only [List.length_cons]
    push_cast
    split at hi
    · simp at hi
    · split at hi
      · simp at hi
      · split_ifs at hi
        · rcases List.mem_cons.mp hi with rfl | hi
          · omega
          · split at hi
            · simp at hi
            · have := ih _ i hi
              simp only at this
              omega
        · have := ih _ i hi
          simp only at this
          omega


theorem input_switch_num (pieces : PieceTable) (s s' : Game) (c : Int)
    (h : input_switch pieces s c = some s') : s'.num_complines = s.num_complines := by
  simp only [input_switch] at h
  split_ifs at h
  all_goals first
    | (simp only [Option.some.injEq] at h; subst h; rfl)
    | (split at h
       · exact absurd h (by simp)
       · simp only [Option.some.injEq] at h; subst h; rfl
       · simp only [Option.some.injEq] at h; subst h; rfl)

theorem runesc_num (input : Game → Int → Option Game)
    (hin : ∀ s s' c, input s c = some s' → s'.num_complines = s.num_complines)
    (s s' : Game) (csi : Int) (buf : Nat → Int) (h : runesc input s csi buf = some s') :
    s'.num_complines = s.num_complines := by
  unfold runesc at h
  split_ifs at h
  all_goals first
    | (simp only [Option.some.injEq] at h; subst h; rfl)
    | exact hin _ _ _ h

theorem input_csi_num (pieces : PieceTable) (input : Game → Int → Option Game)
    (hin : ∀ s s' c, input s c = some s' → s'.num_complines = s.num_complines)
    (s s' : Game) (c : Int) (h : input_csi pieces input s c = some s') :
    s'.num_complines = s.num_complines := by
  simp only [input_csi] at h
  split_ifs at h
  all_goals first
    | exact input_switch_num pieces s s' c h
    | (split at h
       · exact absurd h (by simp)
       · first
         | (simp only [Option.some.injEq] at h; subst h; rfl)
         | (split at h
            · exact absurd h (by simp)
            · have h5 := runesc_num input hin _ _ _ _ h
              exact h5))

theorem game_input_depth_num (pieces : PieceTable) :
    ∀ (depth : Nat) (s s' : Game) (c : Int), game_input_depth pieces depth s c = some s' →
      s'.num_complines = s.num_complines := by
  intro depth
  induction depth with
  | zero => intro s s' c h; simp [game_input_depth] at h
  | succ d ih =>
    intro s s' c h
    simp only [game_input_depth] at h
    split_ifs at h
    · simp only [Option.some.injEq] at h; subst h; rfl
    · simp only [Option.some.injEq] at h; subst h; rfl
    · simp only [Option.some.injEq] at h; subst h; rfl
    · have h5 := input_csi_num pieces _ ih _ _ _ h
      exact h5
    · exact input_csi_num pieces _ ih _ _ _ h

theorem fall_loop_num (pieces : PieceTable) (spawn : SpawnTable) (rnd : Nat) (msec : Int) :
    ∀ (fuel : Nat) (s : Game) (dt : Int), s.num_complines = 0 →
      ∀ e, fall_loop pieces spawn rnd msec fuel s dt = some e →
        match e with
        | LoopExit.returned s' _ => 0 ≤ s'.num_complines ∧ s'.num_complines ≤ 4
        | LoopExit.done s' _ => s'.num_complines = 0 := by
  intro fuel
  induction fuel with
  | zero =>
    intro s dt hn e h
    simp only [fall_loop] at h
    split_ifs at h
    simp only [Option.some.injEq] at h
    subst h
    exact hn
  | succ fuel ih =>
    intro s dt hn e h
    simp only [fall_loop] at h
    split_ifs at h
    · split at h
      · exact absurd h (by simp)
      · split at h
        · exact absurd h (by simp)
        · rename_i s3 hs3
          simp only [Option.some.injEq] at h
          subst h
          simp only [stick] at hs3
          split_ifs at hs3
          have := stick_cells_num _ _ _ _ _ hs3
          simp only [piece_cells, List.length_map, List.length_range, hn] at this
          show 0 ≤ s3.num_complines ∧ s3.num_complines ≤ 4
          push_cast at this
          omega
      · refine ih _ _ ?_ e h
        exact hn
    · refine ih _ _ ?_ e h
      exact hn
    · simp only [Option.some.injEq] at h
      subst h
      exact hn

theorem update_num (pieces : PieceTable) (spawn : SpawnTable) (rnd : Nat) (s : Game)
    (msec : Int) (r : Game × Int) (hs : 0 ≤ s.num_complines ∧ s.num_complines ≤ 4)
    (h : update pieces spawn rnd s msec = some r) :
    0 ≤ r.1.num_complines ∧ r.1.num_complines ≤ 4 := by
  by_cases h1 : s.num_complines ≠ 0
  · by_cases h2 : to_int ((msec - s.prev_tick) >>> (8 : Nat)) > 6
    · simp only [update, h1, h2, ne_eq, not_false_eq_true, if_true] at h
      split at h
      · exact absurd h (by simp)
      · simp only [Option.some.injEq] at h
        subst h
        exact ⟨le_rfl, by norm_num⟩
    · have h3 : ¬ (s.num_complines > 4) := by omega
      simp only [update, h1, h2, h3, ne_eq, not_false_eq_true, if_true, if_false,
        Option.some.injEq] at h
      subst h
      exact hs
  · have hn : s.num_complines = 0 := by simpa using h1
    simp only [update, hn, ne_eq, not_true_eq_false, if_false] at h
    split at h
    · exact absurd h (by simp)
    · rename_i s1 ret heq
      simp only [Option.some.injEq] at h
      subst h
      exact fall_loop_num pieces spawn rnd msec _ s _ hn _ heq
    · rename_i s1 dt1 heq
      have h0 : s1.num_complines = 0 := fall_loop_num pieces spawn rnd msec _ s _ hn _ heq
      split_ifs at h
      · simp only [Option.some.injEq] at h
        subst h
        show 0 ≤ s1.num_complines ∧ s1.num_complines ≤ 4
        omega
      · simp only [Option.some.injEq] at h
        subst h
        show 0 ≤ s1.num_complines ∧ s1.num_complines ≤ 4
        omega

theorem run_calls_num (pieces : PieceTable) (spawn : SpawnTable) :
    ∀ (calls : List Call) (s s' : Game), 0 ≤ s.num_complines ∧ s.num_complines ≤ 4 →
      run_calls pieces spawn s calls = some s' →
      0 ≤ s'.num_complines ∧ s'.num_complines ≤ 4 := by
  intro calls
  induction calls with
  | nil =>
    intro s s' hs h
    simp only [run_calls, Option.some.injEq] at h
    rw [← h]; exact hs
  | cons call calls ih =>
    intro s s' hs h
    cases call with
    | input c =>
      simp only [run_calls] at h
      split at h
      · exact absurd h (by simp)
      · rename_i s1 h1
        have hn := game_input_depth_num pieces 2 s s1 c h1
        exact ih s1 s' (by rw [hn]; exact hs) h
    | tick rnd msec =>
      simp only [run_calls] at h
      split at h
      · exact absurd h (by simp)
      · rename_i r h1
        exact ih r.1 s' (update_num pieces spawn rnd s msec r hs h1) h

theorem fall_loop_indices_bound (pieces : PieceTable) (spawn : SpawnTable) (rnd : Nat)
    (msec : Int) :
    ∀ (fuel : Nat) (s : Game) (dt : Int), s.num_complines = 0 →
      ∀ i ∈ fall_loop_indices pieces spawn rnd msec fuel s dt, 0 ≤ i ∧ i ≤ 3 := by
  intro fuel
  induction fuel with
  | zero => intro s dt _ i hi; simp [fall_loop_indices] at hi
  | succ fuel ih =>
    intro s dt hn i hi
    simp only [fall_loop_indices] at hi
    split_ifs at hi
    · split at hi
      · simp at hi
      · simp only [stick_indices] at hi
        split_ifs at hi
        · have := stick_write_indices_bound _ _ _ _ i hi
          simp only [piece_cells, List.length_map, List.length_range, hn] at this
          push_cast at this
          omega
        · simp at hi
      · exact ih _ _ (by simpa using hn) i hi
    · exact ih _ _ (by simpa using hn) i hi
    · simp at hi

/-- C16: in every state reached from a state with `num_complines = 0` by any
sequence of defined `game_input` and `update` calls, `0 <= num_complines <= 4`,
and every write `complines[num_complines++]` that `stick` performs during an
`update` call from such a state uses an index in 0..3. -/
theorem complines_capacity (pieces : PieceTable) (spawn : SpawnTable) (s0 : Game)
    (h0 : s0.num_complines = 0) (calls : List Call) (s : Game)
    (hrun : run_calls pieces spawn s0 calls = some s) :
    (0 ≤ s.num_complines ∧ s.num_complines ≤ 4) ∧
    (∀ (rnd : Nat) (msec : Int), ∀ i ∈ update_indices pieces spawn rnd s msec,
      0 ≤ i ∧ i ≤ 3) := by
  refine ⟨run_calls_num pieces spawn calls s0 s (by omega) hrun, ?_⟩
  intro rnd msec i hi
  unfold update_indices at hi
  split_ifs at hi with hn
  · simp at hi
  · exact fall_loop_indices_bound pieces spawn rnd msec _ s _ (by simpa using hn) i hi


/-- C16 at a concrete input: from `gap_game` the byte 'a' and the `update` call
of the next tick, which locks the piece and completes row 17 with a write at
index 0. -/
theorem complines_capacity_witness :
    update_indices sample_pieces sample_spawn 0 gap_game 1000 = [0] ∧
    ∃ s, run_calls sample_pieces sample_spawn gap_game [Call.input 97, Call.tick 0 1000] =
        some s ∧ s.num_complines = 1 ∧
      (0 ≤ s.num_complines ∧ s.num_complines ≤ 4) ∧
      (∀ (rnd : Nat) (msec : Int),
        ∀ i ∈ update_indices sample_pieces sample_spawn rnd s msec, 0 ≤ i ∧ i ≤ 3) :=
  ⟨by decide, _, rfl, rfl,
    complines_capacity sample_pieces sample_spawn gap_game rfl
      [Call.input 97, Call.tick 0 1000] _ rfl⟩


/-! ## erase_completed: the sorting loops -/

theorem perm_maps_range (σ : Equiv.Perm Nat) (lo n : Nat)
    (hfix : ∀ k, k < lo ∨ n ≤ k → σ k = k) (k : Nat) (h1 : lo ≤ k) (h2 : k < n) :
    lo ≤ σ k ∧ σ k < n := by
  by_contra hc
  have h3 : σ k < lo ∨ n ≤ σ k := by omega
  have h4 := σ.injective (hfix (σ k) h3)
  omega

theorem sort_step_perm (cl : Nat → Int) (i j : Nat) :
    ∃ σ : Equiv.Perm Nat, (∀ k, k ≠ i → k ≠ j → σ k = k) ∧ sort_step i cl j = cl ∘ σ := by
  unfold sort_step
  split_ifs with h
  · refine ⟨Equiv.swap i j, fun k h1 h2 => Equiv.swap_apply_of_ne_of_ne h1 h2, ?_⟩
    funext k
    simp only [Function.comp]
    by_cases hki : k = i
    · subst hki
      simp
    · by_cases hkj : k = j
      · subst hkj
        simp [Function.update_noteq hki]
      · rw [Function.update_noteq hki, Function.update_noteq hkj,
          Equiv.swap_apply_of_ne_of_ne hki hkj]
  · exact ⟨1, fun _ _ _ => rfl, rfl⟩

theorem sort_step_max (cl : Nat → Int) (i a : Nat) (hia : i < a)
    (h : ∀ k, i < k → k < a → cl k ≤ cl i) :
    ∀ k, i < k → k < a + 1 → sort_step i cl a k ≤ sort_step i cl a i := by
  intro k hk1 hk2
  unfold sort_step
  split_ifs with hgt
  · rw [Function.update_same, Function.update_noteq (by omega)]
    by_cases hka : k = a
    · subst hka
      rw [Function.update_same]; omega
    · rw [Function.update_noteq hka]
      have := h k hk1 (by omega)
      omega
  · by_cases hka : k = a
    · subst hka; omega
    · exact h k hk1 (by omega)

theorem sort_inner (n i : Nat) :
    ∀ (len a : Nat) (cl : Nat → Int), i < a → a + len ≤ n →
      (∀ k, i < k → k < a → cl k ≤ cl i) →
      ∃ σ : Equiv.Perm Nat, (∀ k, k < i ∨ n ≤ k → σ k = k) ∧
        (List.range' a len).foldl (sort_step i) cl = cl ∘ σ ∧
        ∀ k, i < k → k < a + len →
          (List.range' a len).foldl (sort_step i) cl k ≤
            (List.range' a len).foldl (sort_step i) cl i := by
  intro len
  induction len with
  | zero =>
    intro a cl _ _ h
    exact ⟨1, fun _ _ => rfl, rfl, fun k h1 h2 => h k h1 h2⟩
  | succ len ih =>
    intro a cl hia han h
    obtain ⟨τ, hτ, hstep⟩ := sort_step_perm cl i a
    obtain ⟨σ, hσ, heq, hmax⟩ := ih (a + 1) (sort_step i cl a) (by omega) (by omega)
      (sort_step_max cl i a hia h)
    rw [List.range'_succ, List.foldl_cons]
    refine ⟨τ * σ, ?_, ?_, ?_⟩
    · intro k hk
      rw [Equiv.Perm.mul_apply, hσ k hk]
      exact hτ k (by omega) (by omega)
    · rw [heq, hstep]
      funext k
      simp [Function.comp, Equiv.Perm.mul_apply]
    · intro k h1 h2
      exact hmax k h1 (by omega)

theorem sort_outer (n : Nat) :
    ∀ (m : Nat) (cl : Nat → Int), m ≤ n - 1 →
      ∃ σ : Equiv.Perm Nat, (∀ k, n ≤ k → σ k = k) ∧
        (List.range m).foldl
          (fun cl i => (List.range' (i + 1) (n - (i + 1))).foldl (sort_step i) cl) cl = cl ∘ σ ∧
        ∀ a b, a < m → a < b → b < n →
          (List.range m).foldl
            (fun cl i => (List.range' (i + 1) (n - (i + 1))).foldl (sort_step i) cl) cl b ≤
          (List.range m).foldl
            (fun cl i => (List.range' (i + 1) (n - (i + 1))).foldl (sort_step i) cl) cl a := by
  intro m
  induction m with
  | zero =>
    intro cl _
    exact ⟨1, fun _ _ => rfl, rfl, fun a b h => absurd h (Nat.not_lt_zero a)⟩
  | succ m ih =>
    intro cl hm
    obtain ⟨σ, hσ, heq, hsorted⟩ := ih cl (by omega)
    have hrs : List.range (m + 1) = List.range m ++ [m] := List.range_succ m
    rw [hrs, List.foldl_append]
    simp only [List.foldl_cons, List.foldl_nil]
    generalize (List.range m).foldl
      (fun cl i => (List.range' (i + 1) (n - (i + 1))).foldl (sort_step i) cl) cl = cl1
      at heq hsorted ⊢
    obtain ⟨τ, hτ, heq2, hmax⟩ := sort_inner n m (n - (m + 1)) (m + 1) cl1 (by omega)
      (by omega) (fun k h1 h2 => by omega)
    generalize (List.range' (m + 1) (n - (m + 1))).foldl (sort_step m) cl1 = cl2
      at heq2 hmax ⊢
    refine ⟨σ * τ, ?_, ?_, ?_⟩
    · intro k hk
      rw [Equiv.Perm.mul_apply, hτ k (Or.inr hk), hσ k hk]
    · rw [heq2, heq]
      funext k
      simp [Function.comp, Equiv.Perm.mul_apply]
    · intro a b ha hab hb
      by_cases ham : a = m
      · subst ham
        exact hmax b hab (by omega)
      · have ha' : a < m := by omega
        rw [heq2]
        simp only [Function.comp]
        rw [hτ a (Or.inl ha')]
        by_cases hbm : b < m
        · rw [hτ b (Or.inl hbm)]
          exact hsorted a b ha' hab hb
        · have hr := perm_maps_range τ m n hτ b (by omega) hb
          exact hsorted a (τ b) ha' (by omega) hr.2

theorem sort_complines_spec (n : Nat) (cl : Nat → Int)
    (hinj : ∀ i, i < n → ∀ j, j < n → cl i = cl j → i = j) :
    (∀ i j, i < j → j < n → sort_complines n cl j < sort_complines n cl i) ∧
    (∀ t, completed (sort_complines n cl) n t ↔ completed cl n t) := by
  obtain ⟨σ, hσ, heq, hsorted⟩ := sort_outer n (n - 1) cl le_rfl
  have hfix : ∀ k, k < 0 ∨ n ≤ k → σ k = k := fun k hk => hσ k (by omega)
  have hfix' : ∀ k, k < 0 ∨ n ≤ k → σ.symm k = k := by
    intro k hk
    have := hσ k (by omega)
    exact (Equiv.symm_apply_eq σ).mpr this.symm
  unfold sort_complines
  rw [heq] at hsorted ⊢
  simp only [Function.comp] at hsorted ⊢
  constructor
  · intro i j hij hj
    have hle := hsorted i j (by omega) hij hj
    have hne : cl (σ j) ≠ cl (σ i) := by
      intro h
      have h1 := perm_maps_range σ 0 n hfix i (by omega) (by omega)
      have h2 := perm_maps_range σ 0 n hfix j (by omega) hj
      have := σ.injective (hinj (σ j) h2.2 (σ i) h1.2 h)
      omega
    omega
  · intro t
    constructor
    · rintro ⟨j, hj, rfl⟩
      exact ⟨σ j, (perm_maps_range σ 0 n hfix j (by omega) hj).2, rfl⟩
    · rintro ⟨j, hj, rfl⟩
      refine ⟨σ.symm j, (perm_maps_range σ.symm 0 n hfix' j (by omega) hj).2, ?_⟩
      simp


/-! ## erase_completed: the source cursor -/

theorem skip_completed_succ (cl : Nat → Int) (m : Nat) (srow : Int) :
    skip_completed cl (m + 1) srow =
      if cl m = skip_completed cl m srow then skip_completed cl m srow - 1
      else skip_completed cl m srow := by
  unfold skip_completed
  have hrs : List.range (m + 1) = List.range m ++ [m] := List.range_succ m
  rw [hrs, List.foldl_append]
  rfl

theorem skip_completed_prefix (cl : Nat → Int) (n : Nat)
    (hsorted : ∀ i j, i < j → j < n → cl j < cl i) (srow : Int) :
    ∀ m, m ≤ n →
      skip_completed cl m srow ≤ srow ∧
      (∀ i, i < m → cl i ≠ skip_completed cl m srow) ∧
      (∀ t, skip_completed cl m srow < t → t ≤ srow → ∃ i, i < m ∧ cl i = t) := by
  intro m
  induction m with
  | zero =>
    intro _
    refine ⟨le_of_eq rfl, fun i hi => absurd hi (Nat.not_lt_zero i), ?_⟩
    intro t h1 h2
    have : skip_completed cl 0 srow = srow := rfl
    omega
  | succ m ih =>
    intro hm
    obtain ⟨h1, h2, h3⟩ := ih (by omega)
    rw [skip_completed_succ]
    split_ifs with hc
    · refine ⟨by omega, ?_, ?_⟩
      · intro i hi heq
        by_cases him : i = m
        · subst him; omega
        · have := hsorted i m (by omega) (by omega)
          omega
      · intro t ht1 ht2
        by_cases ht : t = skip_completed cl m srow
        · exact ⟨m, by omega, by rw [hc, ht]⟩
        · obtain ⟨i, hi, hit⟩ := h3 t (by omega) ht2
          exact ⟨i, by omega, hit⟩
    · refine ⟨h1, ?_, ?_⟩
      · intro i hi
        by_cases him : i = m
        · subst him; exact hc
        · exact h2 i (by omega)
      · intro t ht1 ht2
        obtain ⟨i, hi, hit⟩ := h3 t ht1 ht2
        exact ⟨i, by omega, hit⟩

theorem skip_completed_spec (cl : Nat → Int) (n : Nat)
    (hsorted : ∀ i j, i < j → j < n → cl j < cl i) (srow : Int) :
    skip_completed cl n srow ≤ srow ∧
    ¬ completed cl n (skip_completed cl n srow) ∧
    (∀ t, skip_completed cl n srow < t → t ≤ srow → completed cl n t) := by
  obtain ⟨h1, h2, h3⟩ := skip_completed_prefix cl n hsorted srow n le_rfl
  refine ⟨h1, ?_, h3⟩
  rintro ⟨i, hi, heq⟩
  exact h2 i hi heq

/-! ## Counting surviving rows -/

theorem surviving_zero (cl : Nat → Int) (n a : Nat) : surviving cl n a 0 = 0 := rfl

theorem surviving_succ (cl : Nat → Int) (n a len : Nat) :
    surviving cl n a (len + 1) =
      (if completed cl n (a : Int) then 0 else 1) + surviving cl n (a + 1) len := by
  unfold surviving
  rw [List.range'_succ, List.countP_cons]
  by_cases h : completed cl n (a : Int)
  · simp [h]
  · simp [h, Nat.add_comm]

theorem surviving_add (cl : Nat → Int) (n a l1 l2 : Nat) :
    surviving cl n a (l1 + l2) = surviving cl n a l1 + surviving cl n (a + l1) l2 := by
  unfold surviving
  have := List.range'_append a l1 l2 1
  rw [Nat.one_mul] at this
  rw [Nat.add_comm l1 l2, ← this, List.countP_append]

theorem surviving_le (cl : Nat → Int) (n a len : Nat) : surviving cl n a len ≤ len := by
  unfold surviving
  have := List.countP_le_length (fun t : Nat => decide (¬ completed cl n (t : Int)))
    (l := List.range' a len)
  simpa using this

theorem surviving_none (cl : Nat → Int) (n a len : Nat)
    (h : ∀ t : Nat, a ≤ t → t < a + len → completed cl n (t : Int)) :
    surviving cl n a len = 0 := by
  unfold surviving
  rw [List.countP_eq_zero]
  intro t ht
  have := List.mem_range'_1.mp ht
  simp [h t this.1 this.2]


/-! ## erase_completed: the compaction loop -/

theorem compact_loop_step (cl : Nat → Int) (n d a1 : Nat) (hd : d < 18) (ha1 : a1 ≤ d)
    (scr : Nat → Int) (srow : Int) (hskip : skip_completed cl n srow = (a1 : Int)) :
    ∃ scr1, compact_loop cl n (d + 1) scr srow (d : Int) =
        compact_loop cl n d scr1 ((a1 : Int) - 1) ((d : Int) - 1) ∧
      (∀ j, j < 10 → scr1 (d * 20 + 2 + j) = scr (a1 * 20 + 2 + j)) ∧
      (∀ k, ¬ (k / 20 = d ∧ 2 ≤ k % 20 ∧ k % 20 < 12) → scr1 k = scr k) := by
  rw [compact_loop]
  simp only [hskip]
  rw [if_neg (by omega)]
  by_cases had : a1 = d
  · subst had
    refine ⟨scr, ?_, fun _ _ => rfl, fun _ _ => rfl⟩
    rw [if_neg (by simp)]
  · refine ⟨fun k => if d * 20 + 2 ≤ k ∧ k < d * 20 + 12 then
        scr (a1 * 20 + 2 + (k - (d * 20 + 2))) else scr k, ?_, ?_, ?_⟩
    · rw [if_pos (by intro h; exact had (by exact_mod_cast h)),
        memcpy_row_nat scr d a1 hd (by omega)]
    · intro j hj
      simp only
      rw [if_pos (by omega)]
      congr 1
      omega
    · intro k hk
      simp only
      rw [if_neg (by omega)]

theorem compact_loop_spec (cl : Nat → Int) (n : Nat)
    (hsorted : ∀ i j, i < j → j < n → cl j < cl i) :
    ∀ (d a : Nat) (scr : Nat → Int), a ≤ d → d ≤ 18 →
      ∃ scr', compact_loop cl n d scr ((a : Int) - 1) ((d : Int) - 1) = some scr' ∧
        (∀ r, r < a → ¬ completed cl n (r : Int) → ∀ j, j < 10 →
          scr' ((d - 1 - surviving cl n (r + 1) (a - (r + 1))) * 20 + 2 + j) =
            scr (r * 20 + 2 + j)) ∧
        (∀ k, ¬ (d - surviving cl n 0 a ≤ k / 20 ∧ k / 20 < d ∧ 2 ≤ k % 20 ∧ k % 20 < 12) →
          scr' k = scr k) := by
  intro d
  induction d with
  | zero =>
    intro a scr ha _
    exact ⟨scr, rfl, fun r hr => by omega, fun _ _ => rfl⟩
  | succ d ih =>
    intro a scr ha hd
    obtain ⟨hs1, hs2, hs3⟩ := skip_completed_spec cl n hsorted ((a : Int) - 1)
    have hcast : (((d + 1 : Nat) : Int) - 1) = (d : Int) := by push_cast; ring
    rw [hcast]
    by_cases hneg : skip_completed cl n ((a : Int) - 1) < 0
    · refine ⟨scr, ?_, ?_, fun _ _ => rfl⟩
      · rw [compact_loop]
        simp only [hneg, if_true]
      · intro r hr hnc
        exact absurd (hs3 (r : Int) (by omega) (by omega)) hnc
    · obtain ⟨a1, ha1⟩ : ∃ a1 : Nat, skip_completed cl n ((a : Int) - 1) = (a1 : Int) :=
        ⟨(skip_completed cl n ((a : Int) - 1)).toNat, by omega⟩
      rw [ha1] at hs1 hs2 hs3
      have ha1a : a1 < a := by omega
      obtain ⟨scr1, hstep, hrow, hframe1⟩ :=
        compact_loop_step cl n d a1 (by omega) (by omega) scr ((a : Int) - 1) ha1
      obtain ⟨scr', hs', hsurv, hframe⟩ := ih a1 scr1 (by omega) (by omega)
      have hgap : surviving cl n (a1 + 1) (a - (a1 + 1)) = 0 :=
        surviving_none cl n _ _ (fun t h1 h2 => hs3 (t : Int) (by omega) (by omega))
      have hone : surviving cl n a1 (a - a1) = 1 := by
        have e : a - a1 = (a - (a1 + 1)) + 1 := by omega
        rw [e, surviving_succ, if_neg hs2, hgap]
      refine ⟨scr', hstep.trans hs', ?_, ?_⟩
      · intro r hr hnc j hj
        have hra1 : r ≤ a1 := by
          by_contra hgt
          exact hnc (hs3 (r : Int) (by omega) (by omega))
        by_cases heq : r = a1
        · subst heq
          rw [hgap]
          have e : (d + 1 - 1 - 0) * 20 + 2 + j = d * 20 + 2 + j := by omega
          rw [e, hframe _ (by omega)]
          exact hrow j hj
        · have hlt : r < a1 := by omega
          have hsplit : surviving cl n (r + 1) (a - (r + 1)) =
              surviving cl n (r + 1) (a1 - (r + 1)) + 1 := by
            have hadd := surviving_add cl n (r + 1) (a1 - (r + 1)) (a - a1)
            have e : (a1 - (r + 1)) + (a - a1) = a - (r + 1) := by omega
            have e2 : r + 1 + (a1 - (r + 1)) = a1 := by omega
            rw [e, e2, hone] at hadd
            exact hadd
          have hle := surviving_le cl n (r + 1) (a1 - (r + 1))
          have e : d + 1 - 1 - surviving cl n (r + 1) (a - (r + 1)) =
              d - 1 - surviving cl n (r + 1) (a1 - (r + 1)) := by
            rw [hsplit]; omega
          rw [e, hsurv r hlt hnc j hj]
          exact hframe1 _ (by omega)
      · intro k hk
        have hsplit : surviving cl n 0 a = surviving cl n 0 a1 + 1 := by
          have hadd := surviving_add cl n 0 a1 (a - a1)
          have e : a1 + (a - a1) = a := by omega
          rw [e, Nat.zero_add, hone] at hadd
          exact hadd
        have hle := surviving_le cl n 0 a1
        rw [hsplit] at hk
        rw [hframe k (by omega)]
        exact hframe1 k (by omega)


/-! ## erase_completed: the result of the compaction -/

theorem countP_one_more (p : Nat → Bool) (a : Nat) :
    ∀ l : List Nat, l.Nodup → a ∈ l → p a = false →
      l.countP (fun t => p t || decide (t = a)) = l.countP p + 1 := by
  intro l
  induction l with
  | nil => intro _ h _; simp at h
  | cons x xs ih =>
    intro hnd hmem hpa
    rw [List.nodup_cons] at hnd
    rw [List.countP_cons, List.countP_cons]
    by_cases hxa : x = a
    · subst hxa
      have hsame : xs.countP (fun t => p t || decide (t = x)) = xs.countP p := by
        apply List.countP_congr
        intro t ht
        have : t ≠ x := fun h => hnd.1 (h ▸ ht)
        simp [this]
      rw [hsame]
      simp [hpa]
    · have hmem' : a ∈ xs := by
        rcases List.mem_cons.mp hmem with h | h
        · exact absurd h.symm hxa
        · exact h
      rw [ih hnd.2 hmem' hpa]
      simp [hxa]
      omega

theorem completed_count (cl : Nat → Int) :
    ∀ n : Nat, (∀ i, i < n → ∀ j, j < n → cl i = cl j → i = j) →
      (∀ j, j < n → 0 ≤ cl j ∧ cl j ≤ 17) →
      (List.range' 0 18).countP (fun (t : Nat) => decide (completed cl n (t : Int))) = n := by
  intro n
  induction n with
  | zero =>
    intro _ _
    rw [List.countP_eq_zero]
    intro t _
    simp [completed]
  | succ n ih =>
    intro hinj hrange
    have hrn := hrange n (by omega)
    have hcongr : (List.range' 0 18).countP
        (fun (t : Nat) => decide (completed cl (n + 1) (t : Int))) =
        (List.range' 0 18).countP
          (fun (t : Nat) => decide (completed cl n (t : Int)) || decide (t = (cl n).toNat)) := by
      apply List.countP_congr
      intro t _
      simp only [completed, decide_eq_true_eq, Bool.or_eq_true]
      constructor
      · rintro ⟨j, hj, hjt⟩
        by_cases hjn : j = n
        · subst hjn
          right; omega
        · left; exact ⟨j, by omega, hjt⟩
      · rintro (⟨j, hj, hjt⟩ | ht)
        · exact ⟨j, by omega, hjt⟩
        · exact ⟨n, by omega, by omega⟩
    rw [hcongr, countP_one_more _ (cl n).toNat _ (List.nodup_range' 0 18)
      (List.mem_range'_1.mpr (by omega)) ?_,
      ih (fun i hi j hj => hinj i (by omega) j (by omega)) (fun j hj => hrange j (by omega))]
    simp only [decide_eq_false_iff_not, completed]
    rintro ⟨j, hj, hjt⟩
    have := hinj j (by omega) n (by omega) (by omega)
    omega

theorem surviving_total (cl : Nat → Int) (n : Nat)
    (hinj : ∀ i, i < n → ∀ j, j < n → cl i = cl j → i = j)
    (hrange : ∀ j, j < n → 0 ≤ cl j ∧ cl j ≤ 17) :
    surviving cl n 0 18 + n = 18 := by
  have h1 := List.length_eq_countP_add_countP
    (fun (t : Nat) => decide (completed cl n (t : Int))) (List.range' 0 18)
  rw [completed_count cl n hinj hrange, List.length_range'] at h1
  unfold surviving
  have h2 : (List.range' 0 18).countP
      (fun a => decide ¬(fun (t : Nat) => decide (completed cl n (t : Int))) a = true) =
      (List.range' 0 18).countP (fun (t : Nat) => decide (¬ completed cl n (t : Int))) := by
    apply List.countP_congr
    intro t _
    simp
  rw [h2] at h1
  omega

theorem surviving_congr (cl cl' : Nat → Int) (n a len : Nat)
    (h : ∀ t, completed cl' n t ↔ completed cl n t) :
    surviving cl' n a len = surviving cl n a len := by
  unfold surviving
  apply List.countP_congr
  intro t _
  simp [h]

theorem survivor_exists (cl : Nat → Int) (n : Nat) :
    ∀ (len a : Nat), a + len = 18 → ∀ k, k < surviving cl n a len →
      ∃ r : Nat, a ≤ r ∧ r ≤ 17 ∧ ¬ completed cl n (r : Int) ∧ survivors_below cl n r = k := by
  intro len
  induction len with
  | zero => intro a _ k hk; simp [surviving_zero] at hk
  | succ len ih =>
    intro a ha k hk
    rw [surviving_succ] at hk
    by_cases hlt : k < surviving cl n (a + 1) len
    · obtain ⟨r, h1, h2, h3, h4⟩ := ih (a + 1) (by omega) k hlt
      exact ⟨r, by omega, h2, h3, h4⟩
    · by_cases hc : completed cl n (a : Int)
      · rw [if_pos hc] at hk; omega
      · rw [if_neg hc] at hk
        refine ⟨a, le_rfl, by omega, hc, ?_⟩
        unfold survivors_below
        have e : 17 - a = len := by omega
        rw [e]
        omega

/-- C19: for a completed-lines set of `n <= 4` distinct rows in 0..17, given in
any order, `erase_completed` returns and, on the resulting board: for each `k`
in 0..(17-n), playfield row `17 - k` holds what the `k`-th surviving row counted
from the bottom (the non-completed row `r` with exactly `k` non-completed rows
below it) held before; the rows 0..n-1 hold what they held before; and every
cell outside the playfield is unchanged. -/
theorem compaction_result (s : Game) (n : Nat) (hn : s.num_complines = (n : Int))
    (hn4 : n ≤ 4)
    (hrows : ∀ j, j < n → 0 ≤ s.complines j ∧ s.complines j ≤ 17)
    (hdist : ∀ i, i < n → ∀ j, j < n → s.complines i = s.complines j → i = j) :
    ∃ s', erase_completed s = some s' ∧
      (∀ k, k ≤ 17 - n →
        ∃ r : Nat, r ≤ 17 ∧ ¬ completed s.complines n (r : Int) ∧
          survivors_below s.complines n r = k ∧
          ∀ j, j < 10 → s'.scr ((17 - k) * 20 + 2 + j) = s.scr (r * 20 + 2 + j)) ∧
      (∀ r j, r < n → j < 10 → s'.scr (r * 20 + 2 + j) = s.scr (r * 20 + 2 + j)) ∧
      (∀ k, k % 20 < 2 ∨ 12 ≤ k % 20 ∨ 18 ≤ k / 20 → s'.scr k = s.scr k) := by
  obtain ⟨hsorted, hsame⟩ := sort_complines_spec n s.complines hdist
  obtain ⟨scr', hloop, hsurv, hframe⟩ :=
    compact_loop_spec (sort_complines n s.complines) n hsorted 18 18 s.scr le_rfl le_rfl
  have htotal := surviving_total s.complines n hdist hrows
  have hcongr : ∀ a len, surviving (sort_complines n s.complines) n a len =
      surviving s.complines n a len :=
    fun a len => surviving_congr s.complines _ n a len hsame
  refine ⟨{ s with complines := sort_complines n s.complines, scr := scr' }, ?_, ?_, ?_, ?_⟩
  · unfold erase_completed
    have h4 : ¬ (s.num_complines > 4) := by omega
    have hnat : s.num_complines.toNat = n := by omega
    simp only [h4, if_false, hnat]
    have e : PF_ROWS - 1 = ((18 : Nat) : Int) - 1 := by simp [PF_ROWS]
    rw [e, hloop]
  · intro k hk
    obtain ⟨r, _, hr17, hnc, hbelow⟩ :=
      survivor_exists s.complines n 18 0 (by omega) k (by omega)
    refine ⟨r, hr17, hnc, hbelow, ?_⟩
    intro j hj
    have h := hsurv r (by omega) (fun hc => hnc ((hsame _).mp hc)) j hj
    rw [hcongr] at h
    have e : 18 - (r + 1) = 17 - r := by omega
    rw [e] at h
    unfold survivors_below at hbelow
    rw [hbelow] at h
    exact h
  · intro r j hr hj
    apply hframe
    rw [hcongr]
    omega
  · intro k hk
    apply hframe
    omega


/-- C19 at a concrete input: `pair_game`, with the rows 5 and 17 completed. -/
theorem compaction_result_witness :
    ∃ s', erase_completed pair_game = some s' ∧
      (∀ k, k ≤ 17 - 2 →
        ∃ r : Nat, r ≤ 17 ∧ ¬ completed pair_game.complines 2 (r : Int) ∧
          survivors_below pair_game.complines 2 r = k ∧
          ∀ j, j < 10 → s'.scr ((17 - k) * 20 + 2 + j) = pair_game.scr (r * 20 + 2 + j)) ∧
      (∀ r j, r < 2 → j < 10 → s'.scr (r * 20 + 2 + j) = pair_game.scr (r * 20 + 2 + j)) ∧
      (∀ k, k % 20 < 2 ∨ 12 ≤ k % 20 ∨ 18 ≤ k / 20 → s'.scr k = pair_game.scr k) :=
  compaction_result pair_game 2 rfl (by decide) (by decide) (by decide)

end Termtris
